import Mathlib

/-!
Verification of the transcript-processing pipeline (`process_transcript.py`,
`utils.py`, `__main__.py`).  The Python source is shallowly embedded: pure
functions become Lean functions, the standard-library routines the source
calls (`textwrap.wrap`, `re.split`, `datetime.strptime`/`strftime` +
`timedelta`, `json.loads`/`dumps`, `str.strip`) are modelled at the level of
detail the source exercises, and the effectful pipeline (`OpenAI` calls,
`sys.exit`, file writes) is modelled by explicit oracles plus an event trace.
Character classification (`\w`, `str.isspace`) is modelled over the ASCII
range, which is the range the repository's prompts and tests exercise.
-/

namespace TranscriptPipeline

/-! ### Character classes

`textwrap` uses the explicit whitespace set `'\t\n\x0b\x0c\r '` both for its
regex character classes and for `str.strip()`-based tests; `\w` (and the
derived `letter = [^\d\W]`, `word_punct = [\w!"'&.,?]`) come from the
`wordsep_re` regex. -/

/-- The six characters of Python `textwrap`'s `_whitespace` constant. -/
def isPyWS (c : Char) : Bool :=
  c = ' ' || c = '\t' || c = '\n' || c = '\r' || c = Char.ofNat 11 || c = Char.ofNat 12

/-- Regex `\w` restricted to ASCII: letters, digits, underscore. -/
def isWordChar (c : Char) : Bool :=
  c.isAlphanum || c = '_'

/-- Regex `[^\d\W]` (a word character that is not a digit) restricted to ASCII. -/
def isLetterW (c : Char) : Bool :=
  c.isAlpha || c = '_'

/-- Regex `[\w!"'&.,?]`, the `word_punct` class of `textwrap.wordsep_re`. -/
def isWordPunct (c : Char) : Bool :=
  isWordChar c || c = '!' || c = '"' || c = Char.ofNat 39 || c = '&' ||
    c = '.' || c = ',' || c = '?'

/-- Erase every whitespace character (the normal form used for the
"`join(split(T,L)) == T` modulo whitespace normalization" property). -/
def eraseWS (s : List Char) : List Char :=
  s.filter (fun c => !isPyWS c)

/-! ### `str.expandtabs()` and whitespace replacement

`textwrap.TextWrapper._munge_whitespace` first calls `text.expandtabs()`
(tab stops every 8 columns, column counter reset after `\n` and `\r`) and
then replaces every whitespace character by a single space. -/

/-- One tab stop's worth of spaces: from column `col` to the next multiple
of 8 (Python `str.expandtabs()` with the default `tabsize=8`). -/
def tabSpaces (col : Nat) : List Char :=
  List.replicate (8 - col % 8) ' '

/-- `str.expandtabs()` (default tab size 8), column reset after `\n`/`\r`. -/
def expandtabsGo (col : Nat) : List Char → List Char
  | [] => []
  | c :: rest =>
    if c = '\t' then tabSpaces col ++ expandtabsGo (col + (8 - col % 8)) rest
    else if c = '\n' || c = '\r' then c :: expandtabsGo 0 rest
    else c :: expandtabsGo (col + 1) rest

def expandtabs (s : List Char) : List Char := expandtabsGo 0 s

/-- The whitespace-to-space substitution of `_munge_whitespace`
(`replace_whitespace=True`, the default). -/
def replaceWS (s : List Char) : List Char :=
  s.map (fun c => if isPyWS c then ' ' else c)

/-- `TextWrapper._munge_whitespace` with the default options. -/
def mungeWhitespace (s : List Char) : List Char :=
  replaceWS (expandtabs s)

/-! ### Paragraph splitting

`split_text_advanced` first runs `re.split(r'\n\n|\n(?!\n)', text)`: at each
newline the regex consumes two newlines when a second one follows, otherwise
one. -/

/-- `re.split(r'\n\n|\n(?!\n)', text)`.  Fuel is the length of the input;
each recursive call consumes at least one character. -/
def paraSplitGo (fuel : Nat) (acc : List Char) (s : List Char) : List (List Char) :=
  match fuel with
  | 0 => [acc.reverse]
  | fuel + 1 =>
    match s with
    | [] => [acc.reverse]
    | c :: rest =>
      if c = '\n' then
        if rest.head? = some '\n' then acc.reverse :: paraSplitGo fuel [] rest.tail
        else acc.reverse :: paraSplitGo fuel [] rest
      else
        paraSplitGo fuel (c :: acc) rest

def paragraphsOf (s : List Char) : List (List Char) :=
  paraSplitGo s.length [] s

/-! ### The `wordsep_re` chunk scanner

`textwrap.TextWrapper._split` splits a munged paragraph with `wordsep_re`
(the default `break_on_hyphens=True` regex) and drops empty strings.  The
regex alternately matches (1) a maximal whitespace run, (2) an em-dash run
`(?<=word_punct)-{2,}(?=\w)`, and (3) a non-greedy word `[^ws]+?` that stops
at the earliest position where one of three lookaround conditions holds:
a hyphenation point, whitespace/end of string, or an upcoming em-dash.
The scanner below reproduces those conditions character by character;
`prevRev` is the reverse of everything already consumed (the regex
lookbehinds inspect absolute positions, which may precede the current
match). -/

/-- Lookbehind of the hyphenation branch:
`-(?:(?<=[lt][lt]-)|(?<=[lt]-[lt]-))` examined just after the scanner has
consumed the characters in `prevRev` (most recent first). -/
def hyphenLookbehind (prevRev : List Char) : Bool :=
  match prevRev with
  | '-' :: p1 :: p2 :: rest =>
    (isLetterW p1 && isLetterW p2) ||
      (match rest with
       | p3 :: _ => isLetterW p1 && p2 = '-' && isLetterW p3
       | [] => false)
  | _ => false

/-- Lookahead of the hyphenation branch: `(?=[lt]-?[lt])`. -/
def hyphenLookahead (rest : List Char) : Bool :=
  match rest with
  | c0 :: c1 :: tail =>
    isLetterW c0 && (isLetterW c1 || (c1 = '-' && match tail with
      | c2 :: _ => isLetterW c2
      | [] => false))
  | _ => false

/-- `-{2,}` followed by a `\w` character: a hyphen run of length at least 2
whose first non-hyphen successor is a word character. -/
def emDashAhead (rest : List Char) : Bool :=
  let run := rest.takeWhile (fun c => c = '-')
  decide (2 ≤ run.length) &&
    (match rest.drop run.length with
     | c :: _ => isWordChar c
     | [] => false)

/-- Stop condition of the non-greedy word branch at the boundary between the
consumed text (`prevRev`, most recent first, nonempty) and `rest`. -/
def wordStop (prevRev : List Char) (rest : List Char) : Bool :=
  -- end of word: `(?=ws|\Z)`
  (match rest with
   | [] => true
   | c :: _ => isPyWS c) ||
  -- hyphenated word
  (hyphenLookbehind prevRev && hyphenLookahead rest) ||
  -- em-dash follows: `(?<=word_punct)(?=-{2,}\w)`
  (match prevRev with
   | p :: _ => isWordPunct p && emDashAhead rest
   | [] => false)

/-- Scan one word chunk: consume at least one character, then keep consuming
until `wordStop` holds.  Returns the chunk (in order) and the remaining
input.  Structural recursion on `rest`. -/
def scanWord (accRev : List Char) (prevRev : List Char) : List Char →
    List Char × List Char
  | [] => (accRev.reverse, [])
  | c :: rest =>
    if wordStop prevRev (c :: rest) then (accRev.reverse, c :: rest)
    else scanWord (c :: accRev) (c :: prevRev) rest

/-- Guard of the em-dash branch: `(?<=word_punct)-{2,}(?=\w)`. -/
def emOkCond (prevRev : List Char) (c : Char) (rest : List Char) : Bool :=
  c = '-' &&
    (match prevRev with
     | p :: _ => isWordPunct p
     | [] => false) && emDashAhead (c :: rest)

/-- The full `wordsep_re` scan of one (munged) paragraph.  Fuel decreases by
one per emitted chunk; every chunk is nonempty, so `s.length` is enough. -/
def wordsepGo (fuel : Nat) (prevRev : List Char) (s : List Char) :
    List (List Char) :=
  match fuel with
  | 0 => []
  | fuel + 1 =>
    match s with
    | [] => []
    | c :: rest =>
      if isPyWS c then
        (c :: rest.takeWhile isPyWS) ::
          wordsepGo fuel ((c :: rest.takeWhile isPyWS).reverse ++ prevRev)
            (rest.dropWhile isPyWS)
      else if emOkCond prevRev c rest then
        ((c :: rest).takeWhile (fun d => d = '-')) ::
          wordsepGo fuel (((c :: rest).takeWhile (fun d => d = '-')).reverse ++ prevRev)
            ((c :: rest).drop ((c :: rest).takeWhile (fun d => d = '-')).length)
      else
        (scanWord [c] (c :: prevRev) rest).1 ::
          wordsepGo fuel ((scanWord [c] (c :: prevRev) rest).1.reverse ++ prevRev)
            (scanWord [c] (c :: prevRev) rest).2

/-- `TextWrapper._split`: wordsep scan of a paragraph (empty chunks cannot
occur, so the `[c for c in chunks if c]` filter is a no-op of the model). -/
def wordsepChunks (s : List Char) : List (List Char) :=
  wordsepGo s.length [] s

/-! ### `TextWrapper._wrap_chunks`

Greedy line filling with the default options: `drop_whitespace=True`,
`break_long_words=True`, `break_on_hyphens=True`, empty indents,
`max_lines=None`.  Python raises `ValueError` for `width <= 0`; the model is
used (and its theorems stated) for `width ≥ 1` only. -/

/-- `chunk.strip() == ''` for a wordsep chunk. -/
def stripEmpty (c : List Char) : Bool := c.all isPyWS

/-- The inner greedy loop: pop chunks onto the current line while they fit.
Returns (line chunks, remaining chunks). -/
def greedyTake (width : Nat) (curLen : Nat) : List (List Char) →
    List (List Char) × List (List Char)
  | [] => ([], [])
  | c :: rest =>
    if curLen + c.length ≤ width then
      let p := greedyTake width (curLen + c.length) rest
      (c :: p.1, p.2)
    else ([], c :: rest)

/-- `str.rfind('-', 0, stop)`: index of the last `'-'` strictly before
`stop`, if any. -/
def rfindHyphen (chunk : List Char) (stop : Nat) : Option Nat :=
  let pre := chunk.take stop
  (pre.reverse.findIdx? (fun c => c = '-')).map (fun j => pre.length - 1 - j)

/-- `TextWrapper._handle_long_word` with `break_long_words=True`: split the
head chunk, preferring a break just after a hyphen that has a non-hyphen
before it.  Returns (piece appended to the line, remainder of the chunk). -/
def handleLongWord (width curLen : Nat) (chunk : List Char) :
    List Char × List Char :=
  let spaceLeft := if width < 1 then 1 else width - curLen
  let e :=
    if decide (spaceLeft < chunk.length) then
      match rfindHyphen chunk spaceLeft with
      | some h =>
        if decide (0 < h) && (chunk.take h).any (fun c => !(c = '-')) then h + 1
        else spaceLeft
      | none => spaceLeft
    else spaceLeft
  (chunk.take e, chunk.drop e)

/-- One drop of a trailing all-whitespace line element
(`if cur_line and cur_line[-1].strip() == '': del cur_line[-1]`). -/
def dropTrailingWS (cur : List (List Char)) : List (List Char) :=
  match cur.getLast? with
  | some l => if stripEmpty l then cur.dropLast else cur
  | none => cur

/-- One iteration of the `_wrap_chunks` outer loop after the initial
whitespace drop: the greedy inner loop followed by `_handle_long_word`.
Returns (the chunks of the current line, the remaining chunks). -/
def wrapStep (width : Nat) (chunks1 : List (List Char)) :
    List (List Char) × List (List Char) :=
  match greedyTake width 0 chunks1 with
  | (g1, c :: rest2) =>
    if decide (width < c.length) then
      (g1 ++ [(handleLongWord width ((g1.map List.length).sum) c).1],
       (handleLongWord width ((g1.map List.length).sum) c).2 :: rest2)
    else (g1, c :: rest2)
  | (g1, []) => (g1, ([] : List (List Char)))

/-- The outer loop of `_wrap_chunks`.  `hasLines` tracks `bool(lines)`.
Fuel: every iteration (at width ≥ 1, nonempty chunks) strictly decreases
`total length + chunk count`. -/
def wrapChunksGo (width : Nat) : Nat → List (List Char) → Bool →
    List (List Char)
  | 0, _, _ => []
  | _ + 1, [], _ => []
  | fuel + 1, c0 :: rest0, hasLines =>
    match wrapStep width (if hasLines && stripEmpty c0 then rest0 else c0 :: rest0) with
    | (line, rest) =>
      if (dropTrailingWS line).isEmpty then wrapChunksGo width fuel rest hasLines
      else (dropTrailingWS line).flatten :: wrapChunksGo width fuel rest true

/-- Fuel bound for `wrapChunksGo`. -/
def chunksMeasure (chunks : List (List Char)) : Nat :=
  (chunks.map List.length).sum + chunks.length

/-- `textwrap.wrap(text, width)` with default options. -/
def textwrapWrap (width : Nat) (text : List Char) : List (List Char) :=
  wrapChunksGo width
    (chunksMeasure (wordsepChunks (mungeWhitespace text)) + 1)
    (wordsepChunks (mungeWhitespace text)) false

/-- Length of the longest word of a text, where a word is a maximal run of
non-whitespace characters; `cur` is the length of the run in progress and
`best` the longest completed run. -/
def maxRunGo : List Char → Nat → Nat → Nat
  | [], cur, best => max cur best
  | c :: rest, cur, best =>
    if isPyWS c then maxRunGo rest 0 (max cur best)
    else maxRunGo rest (cur + 1) best

/-- The length of the longest whitespace-delimited word of `s`. -/
def maxWordLen (s : List Char) : Nat := maxRunGo s 0 0

/-- `utils.split_text_advanced`: split into paragraphs on single/double line
breaks, then `textwrap.wrap` each paragraph, concatenating the lines. -/
def split_text_advanced (text : String) (length_limit : Nat := 2000) :
    List String :=
  ((paragraphsOf text.data).flatMap (fun p => textwrapWrap length_limit p)).map
    (fun l => String.mk l)

/-! ### JSON

Model of the `json` standard library on the fragment the pipeline
exercises: `null`, booleans, integers, strings (standard escapes, ASCII),
arrays and objects.  `json.loads` keeps the last value of a duplicated key,
which the parser reproduces by dict-style insertion.  Mutual inductives are
used so that all functions are structurally recursive. -/

mutual
inductive Json where
  | null : Json
  | bool (b : Bool) : Json
  | num (n : Int) : Json
  | str (s : String) : Json
  | arr (xs : JsonList) : Json
  | obj (ms : JsonMembers) : Json
  deriving DecidableEq

inductive JsonList where
  | nil : JsonList
  | cons (hd : Json) (tl : JsonList) : JsonList
  deriving DecidableEq

inductive JsonMembers where
  | nil : JsonMembers
  | cons (k : String) (v : Json) (tl : JsonMembers) : JsonMembers
  deriving DecidableEq
end

/-- Python `dict` lookup (keys are unique in a dict, so first = only). -/
def memLookup : JsonMembers → String → Option Json
  | .nil, _ => none
  | .cons k v tl, key => if key = k then some v else memLookup tl key

/-- Python `dict.__setitem__`: replace the value at an existing key in
place, otherwise append the new binding. -/
def memInsert : JsonMembers → String → Json → JsonMembers
  | .nil, key, val => .cons key val .nil
  | .cons k v tl, key, val =>
    if key = k then .cons k val tl else .cons k v (memInsert tl key val)

/-- Python `dict.update`: insert every binding of the second dict, in
order, into the first (`info_object.update(json_to_append)`). -/
def memUpdate : JsonMembers → JsonMembers → JsonMembers
  | m, .nil => m
  | m, .cons k v tl => memUpdate (memInsert m k v) tl

/-- The keys of a member list. -/
def memKeys : JsonMembers → List String
  | .nil => []
  | .cons k _ tl => k :: memKeys tl

/-! JSON scanner (`json.loads`).  Fuel-based recursive descent: each nesting
level consumes at least one character, so `length + 1` fuel suffices. -/

/-- JSON's whitespace (`' '`, `'\t'`, `'\n'`, `'\r'`). -/
def isJsonWS (c : Char) : Bool :=
  c = ' ' || c = '\t' || c = '\n' || c = '\r'

def skipJsonWS (s : List Char) : List Char := s.dropWhile isJsonWS

def hexVal (c : Char) : Option Nat :=
  if c.isDigit then some (c.toNat - 48)
  else if 'a' ≤ c && c ≤ 'f' then some (c.toNat - 87)
  else if 'A' ≤ c && c ≤ 'F' then some (c.toNat - 55)
  else none

/-- Scan a JSON string body after the opening quote (standard escapes,
`\uXXXX` for a single code unit; unescaped control characters rejected as
in strict-mode `json.loads`). -/
def scanJsonString (fuel : Nat) (acc : List Char) (s : List Char) :
    Option (String × List Char) :=
  match fuel with
  | 0 => none
  | fuel + 1 =>
    match s with
    | [] => none
    | '"' :: rest => some (String.mk acc.reverse, rest)
    | '\\' :: e :: rest =>
      let esc : Option Char :=
        if e = '"' then some '"'
        else if e = '\\' then some '\\'
        else if e = '/' then some '/'
        else if e = 'b' then some (Char.ofNat 8)
        else if e = 'f' then some (Char.ofNat 12)
        else if e = 'n' then some '\n'
        else if e = 'r' then some '\r'
        else if e = 't' then some '\t'
        else none
      (match esc with
       | some c => scanJsonString fuel (c :: acc) rest
       | none =>
         if e = 'u' then
           match rest with
           | h1 :: h2 :: h3 :: h4 :: rest2 =>
             match hexVal h1, hexVal h2, hexVal h3, hexVal h4 with
             | some a, some b, some c, some d =>
               scanJsonString fuel
                 (Char.ofNat (((a * 16 + b) * 16 + c) * 16 + d) :: acc) rest2
             | _, _, _, _ => none
           | _ => none
         else none)
    | c :: rest =>
      if c.toNat < 32 then none else scanJsonString fuel (c :: acc) rest

/-- Scan an integer literal (optional `-`, no leading zeros; fractional and
exponent forms are outside the modelled fragment). -/
def scanJsonInt (s : List Char) : Option (Int × List Char) :=
  let core : List Char → Option (Nat × List Char) := fun t =>
    match t with
    | '0' :: rest => some (0, rest)
    | c :: _ =>
      if c.isDigit then
        let ds := t.takeWhile Char.isDigit
        some (ds.foldl (fun n c => n * 10 + (c.toNat - 48)) 0,
              t.dropWhile Char.isDigit)
      else none
    | [] => none
  match s with
  | '-' :: rest => (core rest).map (fun p => (-(p.1 : Int), p.2))
  | _ => (core s).map (fun p => ((p.1 : Int), p.2))

mutual
/-- Parse one JSON value at the head of `s` (no leading whitespace). -/
def scanJsonValue (fuel : Nat) (s : List Char) : Option (Json × List Char) :=
  match fuel with
  | 0 => none
  | fuel + 1 =>
    match s with
    | 'n' :: 'u' :: 'l' :: 'l' :: rest => some (.null, rest)
    | 't' :: 'r' :: 'u' :: 'e' :: rest => some (.bool true, rest)
    | 'f' :: 'a' :: 'l' :: 's' :: 'e' :: rest => some (.bool false, rest)
    | '"' :: rest =>
      (scanJsonString (rest.length + 1) [] rest).map
        (fun p => (.str p.1, p.2))
    | '[' :: rest =>
      let rest1 := skipJsonWS rest
      (match rest1 with
       | ']' :: rest2 => some (.arr .nil, rest2)
       | _ =>
         match scanJsonArrayItems fuel rest1 with
         | some (xs, rest2) => some (.arr xs, rest2)
         | none => none)
    | '{' :: rest =>
      let rest1 := skipJsonWS rest
      (match rest1 with
       | '}' :: rest2 => some (.obj .nil, rest2)
       | _ =>
         match scanJsonObjectItems fuel .nil rest1 with
         | some (ms, rest2) => some (.obj ms, rest2)
         | none => none)
    | _ => (scanJsonInt s).map (fun p => (.num p.1, p.2))

/-- Comma-separated array items, ending at `]`. -/
def scanJsonArrayItems (fuel : Nat) (s : List Char) :
    Option (JsonList × List Char) :=
  match fuel with
  | 0 => none
  | fuel + 1 =>
    match scanJsonValue fuel s with
    | none => none
    | some (v, rest) =>
      match skipJsonWS rest with
      | ']' :: rest2 => some (.cons v .nil, rest2)
      | ',' :: rest2 =>
        (match scanJsonArrayItems fuel (skipJsonWS rest2) with
         | some (xs, rest3) => some (.cons v xs, rest3)
         | none => none)
      | _ => none

/-- Comma-separated `"key": value` pairs, ending at `}`; duplicate keys are
resolved by dict insertion (last value wins), as `json.loads` does. -/
def scanJsonObjectItems (fuel : Nat) (acc : JsonMembers) (s : List Char) :
    Option (JsonMembers × List Char) :=
  match fuel with
  | 0 => none
  | fuel + 1 =>
    match s with
    | '"' :: rest =>
      (match scanJsonString (rest.length + 1) [] rest with
       | none => none
       | some (key, rest1) =>
         match skipJsonWS rest1 with
         | ':' :: rest2 =>
           (match scanJsonValue fuel (skipJsonWS rest2) with
            | none => none
            | some (v, rest3) =>
              let acc2 := memInsert acc key v
              match skipJsonWS rest3 with
              | '}' :: rest4 => some (acc2, rest4)
              | ',' :: rest4 =>
                scanJsonObjectItems fuel acc2 (skipJsonWS rest4)
              | _ => none)
         | _ => none)
    | _ => none
end

/-- `json.loads`: parse a complete JSON document, requiring only whitespace
after the value. -/
def jsonLoads (s : String) : Option Json :=
  match scanJsonValue (s.length + 1) (skipJsonWS s.data) with
  | some (v, rest) => if skipJsonWS rest = [] then some v else none
  | none => none

/-- `json.dumps` escaping of one character of a string value. -/
def escapeJsonChar (c : Char) : List Char :=
  if c = '"' then ['\\', '"']
  else if c = '\\' then ['\\', '\\']
  else if c = '\n' then ['\\', 'n']
  else if c = '\t' then ['\\', 't']
  else if c = '\r' then ['\\', 'r']
  else if c = Char.ofNat 8 then ['\\', 'b']
  else if c = Char.ofNat 12 then ['\\', 'f']
  else [c]

/-- `json.dumps` rendering of a string (ASCII fragment; control characters
other than the short escapes are outside the modelled fragment). -/
def dumpsString (s : String) : String :=
  "\"" ++ String.mk (s.data.flatMap escapeJsonChar) ++ "\""

/-- Decimal rendering of an integer. -/
def intDecimal (n : Int) : String :=
  if n < 0 then "-" ++ toString n.natAbs else toString n.toNat

mutual
/-- `json.dumps(x)` with default separators `(", ", ": ")`. -/
def dumpsCompact : Json → String
  | .null => "null"
  | .bool true => "true"
  | .bool false => "false"
  | .num n => intDecimal n
  | .str s => dumpsString s
  | .arr .nil => "[]"
  | .arr (.cons x tl) => "[" ++ dumpsCompact x ++ dumpsCompactList tl ++ "]"
  | .obj .nil => "\x7b\x7d"
  | .obj (.cons k v tl) =>
    "\x7b" ++ dumpsString k ++ ": " ++ dumpsCompact v ++
      dumpsCompactMembers tl ++ "\x7d"

def dumpsCompactList : JsonList → String
  | .nil => ""
  | .cons x tl => ", " ++ dumpsCompact x ++ dumpsCompactList tl

def dumpsCompactMembers : JsonMembers → String
  | .nil => ""
  | .cons k v tl =>
    ", " ++ dumpsString k ++ ": " ++ dumpsCompact v ++ dumpsCompactMembers tl
end

/-- `level * 4` spaces (the `indent=4` prefix at nesting depth `level`). -/
def indentPad (level : Nat) : String :=
  String.mk (List.replicate (level * 4) ' ')

mutual
/-- `json.dumps(x, indent=4)` (item separator `","` + newline, key
separator `": "`). -/
def dumpsIndent (level : Nat) : Json → String
  | .arr .nil => "[]"
  | .arr (.cons x tl) =>
    "[\n" ++ indentPad (level + 1) ++ dumpsIndent (level + 1) x ++
      dumpsIndentList (level + 1) tl ++ "\n" ++ indentPad level ++ "]"
  | .obj .nil => "\x7b\x7d"
  | .obj (.cons k v tl) =>
    "\x7b\n" ++ indentPad (level + 1) ++ dumpsString k ++ ": " ++
      dumpsIndent (level + 1) v ++ dumpsIndentMembers (level + 1) tl ++
      "\n" ++ indentPad level ++ "\x7d"
  | .null => "null"
  | .bool true => "true"
  | .bool false => "false"
  | .num n => intDecimal n
  | .str s => dumpsString s

def dumpsIndentList (level : Nat) : JsonList → String
  | .nil => ""
  | .cons x tl =>
    ",\n" ++ indentPad level ++ dumpsIndent level x ++ dumpsIndentList level tl

def dumpsIndentMembers (level : Nat) : JsonMembers → String
  | .nil => ""
  | .cons k v tl =>
    ",\n" ++ indentPad level ++ dumpsString k ++ ": " ++
      dumpsIndent level v ++ dumpsIndentMembers level tl
end

/-- `json.dumps(info_object, indent=4)` as used by the persister. -/
def jsonDumpsIndent4 (j : Json) : String := dumpsIndent 0 j

/-- Python `str.strip()` with no argument (whitespace at both ends). -/
def pyStrip (s : String) : String :=
  String.mk (((s.data.dropWhile isPyWS).reverse.dropWhile isPyWS).reverse)

/-! ### Dates: `get_scheduled_date` and `schedule_follow_up`

`get_scheduled_date` is `datetime.strptime(s, "%Y-%m-%dT%H:%M:%SZ")`, plus
`timedelta(days=7)`, plus `strftime` with the same format.  The `_strptime`
field regexes are (case-insensitively, with backtracking):
`Y: \d\d\d\d`, `m: 1[0-2]|0[1-9]|[1-9]`, `d: 3[0-1]|[1-2]\d|0[1-9]|[1-9]| [1-9]`,
`H: 2[0-3]|[0-1]\d|\d`, `M: [0-5]\d|\d`, `S: 6[0-1]|[0-5]\d|\d`; the whole
string must be consumed, and the `datetime` constructor then validates the
calendar (year ≥ 1, day within the month, second ≤ 59).  `ValueError` and
`OverflowError` are modelled by `none`. -/

structure DateTimeM where
  year : Nat
  month : Nat
  day : Nat
  hour : Nat
  minute : Nat
  second : Nat
  deriving DecidableEq

def isLeapYear (y : Nat) : Bool :=
  (y % 4 = 0 && !(y % 100 = 0)) || y % 400 = 0

def daysInMonth (y m : Nat) : Nat :=
  match m with
  | 1 => 31
  | 2 => if isLeapYear y then 29 else 28
  | 3 => 31
  | 4 => 30
  | 5 => 31
  | 6 => 30
  | 7 => 31
  | 8 => 31
  | 9 => 30
  | 10 => 31
  | 11 => 30
  | _ => 31

def digitVal (c : Char) : Nat := c.toNat - 48

/-- Candidate matches of one `_strptime` field regex, in the alternation's
order: each candidate is (value, rest of the input). -/
def fieldCands (alts : List (List Char → Option (Nat × List Char)))
    (s : List Char) : List (Nat × List Char) :=
  alts.filterMap (fun a => a s)

/-- A two-character alternative: first character in `[lo1, hi1]`, second a
digit in `[lo2, hi2]`. -/
def alt2 (lo1 hi1 lo2 hi2 : Char) (s : List Char) :
    Option (Nat × List Char) :=
  match s with
  | a :: b :: rest =>
    if lo1 ≤ a && a ≤ hi1 && a.isDigit && lo2 ≤ b && b ≤ hi2 && b.isDigit then
      some (digitVal a * 10 + digitVal b, rest)
    else none
  | _ => none

/-- A one-character alternative: a digit in `[lo, hi]`. -/
def alt1 (lo hi : Char) (s : List Char) : Option (Nat × List Char) :=
  match s with
  | a :: rest =>
    if lo ≤ a && a ≤ hi && a.isDigit then some (digitVal a, rest) else none
  | _ => none

/-- The ` [1-9]` alternative of the `%d` regex. -/
def altSpaceDigit (s : List Char) : Option (Nat × List Char) :=
  match s with
  | ' ' :: a :: rest =>
    if '1' ≤ a && a ≤ '9' then some (digitVal a, rest) else none
  | _ => none

def monthCands (s : List Char) : List (Nat × List Char) :=
  fieldCands [alt2 '1' '1' '0' '2', alt2 '0' '0' '1' '9', alt1 '1' '9'] s

def dayCands (s : List Char) : List (Nat × List Char) :=
  fieldCands
    [alt2 '3' '3' '0' '1', alt2 '1' '2' '0' '9', alt2 '0' '0' '1' '9',
     alt1 '1' '9', altSpaceDigit] s

def hourCands (s : List Char) : List (Nat × List Char) :=
  fieldCands [alt2 '2' '2' '0' '3', alt2 '0' '1' '0' '9', alt1 '0' '9'] s

def minuteCands (s : List Char) : List (Nat × List Char) :=
  fieldCands [alt2 '0' '5' '0' '9', alt1 '0' '9'] s

def secondCands (s : List Char) : List (Nat × List Char) :=
  fieldCands [alt2 '6' '6' '0' '1', alt2 '0' '5' '0' '9', alt1 '0' '9'] s

/-- Regex backtracking through a field's alternatives: feed each candidate
to the continuation in order, keeping the first success. -/
def firstCand (cands : List (Nat × List Char))
    (k : Nat → List Char → Option DateTimeM) : Option DateTimeM :=
  match cands with
  | [] => none
  | (v, r) :: rest =>
    match k v r with
    | some x => some x
    | none => firstCand rest k

/-- A literal character of the format (`re.IGNORECASE` is in force, which
matters for `T` and `Z`). -/
def expectLit (c : Char) (s : List Char) : Option (List Char) :=
  match s with
  | a :: rest => if a = c || a = c.toLower then some rest else none
  | _ => none

/-- Stage of the format regex after `%M:`: seconds, then the literal `Z`,
then end of input. -/
def parseSecondStage (y m d h mi : Nat) (s : List Char) : Option DateTimeM :=
  firstCand (secondCands s) (fun sec r =>
    match expectLit 'Z' r with
    | some [] => some ⟨y, m, d, h, mi, sec⟩
    | _ => none)

/-- Stage after `%H:`: minutes and the literal `:`. -/
def parseMinuteStage (y m d h : Nat) (s : List Char) : Option DateTimeM :=
  firstCand (minuteCands s) (fun mi r =>
    match expectLit ':' r with
    | none => none
    | some r2 => parseSecondStage y m d h mi r2)

/-- Stage after `%dT`: hours and the literal `:`. -/
def parseHourStage (y m d : Nat) (s : List Char) : Option DateTimeM :=
  firstCand (hourCands s) (fun h r =>
    match expectLit ':' r with
    | none => none
    | some r2 => parseMinuteStage y m d h r2)

/-- Stage after `%m-`: day of month and the literal `T`. -/
def parseDayStage (y m : Nat) (s : List Char) : Option DateTimeM :=
  firstCand (dayCands s) (fun d r =>
    match expectLit 'T' r with
    | none => none
    | some r2 => parseHourStage y m d r2)

/-- Stage after `%Y-`: month and the literal `-`. -/
def parseMonthStage (y : Nat) (s : List Char) : Option DateTimeM :=
  firstCand (monthCands s) (fun m r =>
    match expectLit '-' r with
    | none => none
    | some r2 => parseDayStage y m r2)

/-- The regex-match phase of
`datetime.strptime(s, "%Y-%m-%dT%H:%M:%SZ")` (full match required). -/
def strptimeZ (s : List Char) : Option DateTimeM :=
  match s with
  | y1 :: y2 :: y3 :: y4 :: rest =>
    if y1.isDigit && y2.isDigit && y3.isDigit && y4.isDigit then
      let y := ((digitVal y1 * 10 + digitVal y2) * 10 + digitVal y3) * 10 +
        digitVal y4
      match expectLit '-' rest with
      | none => none
      | some rest1 => parseMonthStage y rest1
    else none
  | _ => none

/-- The validation done by the `datetime` constructor after the regex match
(`MINYEAR = 1`; leap seconds pass the regex but not the constructor). -/
def datetimeValid (dt : DateTimeM) : Bool :=
  1 ≤ dt.year && dt.year ≤ 9999 && 1 ≤ dt.month && dt.month ≤ 12 &&
    1 ≤ dt.day && dt.day ≤ daysInMonth dt.year dt.month &&
    dt.hour ≤ 23 && dt.minute ≤ 59 && dt.second ≤ 59

/-- `datetime.strptime(s, "%Y-%m-%dT%H:%M:%SZ")`, `ValueError` as `none`. -/
def strptimeFull (s : List Char) : Option DateTimeM :=
  match strptimeZ s with
  | some dt => if datetimeValid dt then some dt else none
  | none => none

/-- The day after, in the proleptic Gregorian calendar. -/
def nextDay (dt : DateTimeM) : DateTimeM :=
  if dt.day < daysInMonth dt.year dt.month then
    { dt with day := dt.day + 1 }
  else if dt.month < 12 then
    { dt with month := dt.month + 1, day := 1 }
  else
    { dt with year := dt.year + 1, month := 1, day := 1 }

/-- `datetime + timedelta(days=n)`: the calendar date `n` days later (the
time of day is unchanged). -/
def addDays (n : Nat) (dt : DateTimeM) : DateTimeM :=
  match n with
  | 0 => dt
  | n + 1 => addDays n (nextDay dt)

/-- Complete leap years among `1..y` (`y/4 - y/100 + y/400`). -/
def leapsBefore (y : Nat) : Nat := (y / 4 - y / 100) + y / 400

/-- Days in the months of year `y` strictly before month `m` (`1 ≤ m ≤ 12`). -/
def daysBeforeMonth (y m : Nat) : Nat :=
  let base :=
    if m ≤ 1 then 0
    else if m = 2 then 31
    else if m = 3 then 59
    else if m = 4 then 90
    else if m = 5 then 120
    else if m = 6 then 151
    else if m = 7 then 181
    else if m = 8 then 212
    else if m = 9 then 243
    else if m = 10 then 273
    else if m = 11 then 304
    else 334
  if 3 ≤ m && isLeapYear y then base + 1 else base

/-- `date.toordinal()`: day number in the proleptic Gregorian calendar,
with 0001-01-01 as day 1. -/
def toOrdinal (dt : DateTimeM) : Nat :=
  365 * (dt.year - 1) + leapsBefore (dt.year - 1) +
    daysBeforeMonth dt.year dt.month + dt.day

def digitChar (d : Nat) : Char := Char.ofNat (48 + d)

/-- Decimal digits of `n` (no padding), as printed by glibc `%Y`. -/
def natDecimalGo (fuel n : Nat) : List Char :=
  match fuel with
  | 0 => []
  | fuel + 1 =>
    if n < 10 then [digitChar n]
    else natDecimalGo fuel (n / 10) ++ [digitChar (n % 10)]

def natDecimal (n : Nat) : List Char := natDecimalGo (n + 1) n

/-- Two zero-padded decimal digits (glibc `%m`, `%d`, `%H`, `%M`, `%S`). -/
def pad2 (n : Nat) : List Char := [digitChar (n / 10 % 10), digitChar (n % 10)]

/-- `dt.strftime("%Y-%m-%dT%H:%M:%SZ")` on Linux/glibc: the year is printed
unpadded, all other fields zero-padded to two digits. -/
def strftimeZ (dt : DateTimeM) : List Char :=
  natDecimal dt.year ++ '-' :: pad2 dt.month ++ '-' :: pad2 dt.day ++
    'T' :: pad2 dt.hour ++ ':' :: pad2 dt.minute ++ ':' :: pad2 dt.second ++
    ['Z']

/-- `utils.get_scheduled_date`: parse, add seven days, re-format.
`none` models the `ValueError` of `strptime`/`datetime` and the
`OverflowError` of `+ timedelta` past year 9999. -/
def get_scheduled_date (date_str : String) : Option String :=
  match strptimeFull date_str.data with
  | none => none
  | some dt =>
    let nd := addDays 7 dt
    if nd.year ≤ 9999 then some (String.mk (strftimeZ nd)) else none

/-- `utils.schedule_follow_up`: builds the tool-response JSON payload;
`sentiment` is included only when not `None`. -/
def schedule_follow_up (interviewer candidate interview_date : String)
    (sentiment : Option String := none) : Option String :=
  match get_scheduled_date interview_date with
  | none => none
  | some nd =>
    let base : JsonMembers :=
      .cons "interviewer" (.str interviewer)
        (.cons "candidate" (.str candidate)
          (.cons "schedule_date" (.str nd) .nil))
    let resp : JsonMembers :=
      match sentiment with
      | some s => memInsert base "sentiment" (.str s)
      | none => base
    some (dumpsCompact (.obj resp))

/-- Modelled from the spec: a string is in strict ISO-8601
`YYYY-MM-DDTHH:MM:SSZ` form iff it is the zero-padded rendering of a valid
calendar date-time with a four-digit year.  (`utils.get_scheduled_date`'s
docstring promises exactly this input format; the spec's Follow-up
Scheduler contract says every other string must be rejected.) -/
def pad4 (n : Nat) : List Char :=
  [digitChar (n / 1000 % 10), digitChar (n / 100 % 10),
   digitChar (n / 10 % 10), digitChar (n % 10)]

/-- The strict rendering of a date-time (4-digit year, all fields
zero-padded, literal `T` and `Z`). -/
def strictFormat (dt : DateTimeM) : String :=
  String.mk (pad4 dt.year ++ '-' :: pad2 dt.month ++ '-' :: pad2 dt.day ++
    'T' :: pad2 dt.hour ++ ':' :: pad2 dt.minute ++ ':' :: pad2 dt.second ++
    ['Z'])

/-- Modelled from the spec: membership in the strict ISO-8601 format. -/
def isStrictIso (s : String) : Prop :=
  ∃ dt : DateTimeM, datetimeValid dt ∧ s = strictFormat dt

/-! ### The retrying request client

Both decorated functions use
`retry(stop=stop_after_attempt(3), wait=wait_exponential(...),
retry=retry_if_exception_type((APIConnectionError, APITimeoutError,
InternalServerError)))`.  A call's behaviour is an oracle from the attempt
number (1-based) to an outcome; tenacity re-raises non-listed exceptions at
once and raises `RetryError` (distinct from the original exception) after
the third failed attempt. -/

inductive ApiError where
  | connectionError
  | timeoutError
  | internalServerError
  | badRequestError
  | authenticationError
  | rateLimitError
  deriving DecidableEq

/-- The tuple passed to `retry_if_exception_type`. -/
def isRetryableError : ApiError → Bool
  | .connectionError => true
  | .timeoutError => true
  | .internalServerError => true
  | _ => false

inductive CallResult (α : Type) where
  | ok (a : α)
  | raised (e : ApiError)
  deriving DecidableEq

/-- Result of a tenacity-decorated call: success, the original exception
(non-retryable, surfaced immediately), or `tenacity.RetryError` after
exhausting the attempts. -/
inductive RetryResult (α : Type) where
  | ok (a : α)
  | raised (e : ApiError)
  | retryError (e : ApiError)
  deriving DecidableEq

/-- The tenacity loop: `remaining` further attempts are allowed after the
current one; `i` is the current attempt number.  Returns the result and the
number of attempts made. -/
def tenacityGo (body : Nat → CallResult α) :
    Nat → Nat → RetryResult α × Nat
  | remaining, i =>
    match body i with
    | .ok a => (.ok a, i)
    | .raised e =>
      if isRetryableError e then
        match remaining with
        | 0 => (.retryError e, i)
        | r + 1 => tenacityGo body r (i + 1)
      else (.raised e, i)

/-- A call decorated with `stop_after_attempt(3)`. -/
def tenacityRetry3 (body : Nat → CallResult α) : RetryResult α × Nat :=
  tenacityGo body 2 1

/-- `chat_completions_request`: one OpenAI chat call behind the retry
decorator.  The oracle gives each attempt's outcome (`α` stands for the
assistant message). -/
def chat_completions_request (call : Nat → CallResult α) :
    RetryResult α × Nat :=
  tenacityRetry3 call

/-! ### The moderation gate

`has_moderation_issues` scans the chunks of `split_text_advanced(text)` in
order, issuing one moderation request per chunk and returning `True` on the
first flagged chunk.  The `@retry` decorator wraps the whole function, so a
retry restarts the scan from the first chunk.  `modCall` maps the global
request counter to that request's outcome; the scan also returns the list
of chunk indices requested, in order. -/

def moderationScan (modCall : Nat → CallResult Bool) :
    List String → Nat → Nat → CallResult Bool × List Nat
  | [], _, _ => (.ok false, [])
  | _chunk :: rest, k, i =>
    match modCall k with
    | .raised e => (.raised e, [i])
    | .ok flagged =>
      if flagged then (.ok true, [i])
      else
        let p := moderationScan modCall rest (k + 1) (i + 1)
        (p.1, i :: p.2)

/-- The decorated moderation gate, with the per-chunk request log:
`remaining` further scan attempts are allowed after the current one. -/
def hmiRetryGo (modCall : Nat → CallResult Bool) (chunks : List String) :
    Nat → Nat → List Nat → RetryResult Bool × List Nat
  | 0, k, log =>
    (match moderationScan modCall chunks k 0 with
     | (.ok b, reqs) => (.ok b, log ++ reqs)
     | (.raised e, reqs) =>
       if isRetryableError e then (.retryError e, log ++ reqs)
       else (.raised e, log ++ reqs))
  | r + 1, k, log =>
    (match moderationScan modCall chunks k 0 with
     | (.ok b, reqs) => (.ok b, log ++ reqs)
     | (.raised e, reqs) =>
       if isRetryableError e then
         hmiRetryGo modCall chunks r (k + reqs.length) (log ++ reqs)
       else (.raised e, log ++ reqs))

/-- `has_moderation_issues` under the `@retry` decorator, over an oracle of
per-request outcomes. -/
def has_moderation_issues_retry (modCall : Nat → CallResult Bool)
    (text : String) : RetryResult Bool × List Nat :=
  hmiRetryGo modCall (split_text_advanced text) 2 0 []

/-- The moderation scan when no request fails: returns the gate's Boolean
and the list of chunks for which a request was issued. -/
def moderationLoop (flagged : String → Bool) :
    List String → Bool × List String
  | [] => (false, [])
  | c :: rest =>
    if flagged c then (true, [c])
    else
      let p := moderationLoop flagged rest
      (p.1, c :: p.2)

/-- `has_moderation_issues` with a failure-free flag oracle. -/
def has_moderation_issues (flagged : String → Bool) (text : String) : Bool :=
  (moderationLoop flagged (split_text_advanced text)).1

/-! ### `process_transcript`

The pipeline is modelled as a trace of its outbound effects plus a final
outcome.  The chat oracle maps the index of a chat-completion call to the
assistant's reply; uncaught Python exceptions become `Outcome.error`. -/

structure ToolCallM where
  id : String
  name : String
  arguments : String

structure ReplyM where
  content : String
  tool_calls : List ToolCallM

structure PipelineEnv where
  flagged : String → Bool
  chat : Nat → ReplyM

inductive Event where
  | moderationRequest (chunk : String)
  | chatRequest (n : Nat)
  | fileSave (path : String) (content : String)
  deriving DecidableEq

inductive PyError where
  | jsonDecodeError
  | keyError (k : String)
  | attributeError
  | typeError
  | valueError
  deriving DecidableEq

inductive Outcome where
  | exited (code : Nat)
  | completed
  | error (e : PyError)
  deriving DecidableEq

mutual
/-- Python `repr` on the modelled JSON fragment (containers print with
single-quoted strings); used only through `pyStrOfJson` below. -/
def reprPy : Json → String
  | .null => "None"
  | .bool true => "True"
  | .bool false => "False"
  | .num n => intDecimal n
  | .str s => String.mk (Char.ofNat 39 :: s.data ++ [Char.ofNat 39])
  | .arr .nil => "[]"
  | .arr (.cons x tl) => "[" ++ reprPy x ++ reprPyList tl ++ "]"
  | .obj .nil => "\x7b\x7d"
  | .obj (.cons k v tl) =>
    "\x7b" ++ String.mk (Char.ofNat 39 :: k.data ++ [Char.ofNat 39]) ++
      ": " ++ reprPy v ++ reprPyMembers tl ++ "\x7d"

def reprPyList : JsonList → String
  | .nil => ""
  | .cons x tl => ", " ++ reprPy x ++ reprPyList tl

def reprPyMembers : JsonMembers → String
  | .nil => ""
  | .cons k v tl =>
    ", " ++ String.mk (Char.ofNat 39 :: k.data ++ [Char.ofNat 39]) ++ ": " ++
      reprPy v ++ reprPyMembers tl
end

/-- Python `str()`/f-string formatting of a dict value. -/
def pyStrOfJson : Json → String
  | .str s => s
  | j => reprPy j

/-- The `if tool_calls:` loop: dispatch `schedule_follow_up` calls, ignore
other names, and issue one follow-up narration request per handled call. -/
def processToolCalls (tcs : List ToolCallM) (events : List Event)
    (nextChat : Nat) : List Event × Outcome :=
  match tcs with
  | [] => (events, .completed)
  | tc :: rest =>
    if tc.name = "schedule_follow_up" then
      match jsonLoads tc.arguments with
      | none => (events, .error .jsonDecodeError)
      | some (.obj args) =>
        let idate := (memLookup args "interview_date").getD .null
        (match idate with
         | .str ds =>
           (match get_scheduled_date ds with
            | none => (events, .error .valueError)
            | some _nd =>
              processToolCalls rest (events ++ [Event.chatRequest nextChat])
                (nextChat + 1))
         | _ => (events, .error .typeError))
      | some _ => (events, .error .attributeError)
    else processToolCalls rest events nextChat

/-- `process_transcript`: moderation gate, two JSON-mode extraction calls,
merge and persist, then the tool-call round. -/
def process_transcript (env : PipelineEnv) (transcript : String) :
    List Event × Outcome :=
  let ml := moderationLoop env.flagged (split_text_advanced transcript)
  let modEvents := ml.2.map Event.moderationRequest
  if ml.1 then (modEvents, .exited 1)
  else
    let ev1 := modEvents ++ [Event.chatRequest 0]
    let r1 := env.chat 0
    match jsonLoads (pyStrip r1.content) with
    | none => (ev1, .error .jsonDecodeError)
    | some j1 =>
      let ev2 := ev1 ++ [Event.chatRequest 1]
      let r2 := env.chat 1
      match jsonLoads (pyStrip r2.content) with
      | none => (ev2, .error .jsonDecodeError)
      | some j2 =>
        match j1 with
        | .obj o1 =>
          (match j2 with
           | .obj o2 =>
             let merged := memUpdate o1 o2
             (match memLookup merged "candidate" with
              | none => (ev2, .error (.keyError "candidate"))
              | some cv =>
                match memLookup merged "datetime" with
                | none => (ev2, .error (.keyError "datetime"))
                | some dv =>
                  let path := "output/" ++ pyStrOfJson cv ++ "-" ++
                    pyStrOfJson dv ++ ".json"
                  let ev3 := ev2 ++
                    [Event.fileSave path (jsonDumpsIndent4 (.obj merged)),
                     Event.chatRequest 2]
                  processToolCalls (env.chat 2).tool_calls ev3 3)
           | _ => (ev2, .error .typeError))
        | _ => (ev2, .error .attributeError)

/-! ### The `__main__` batch loop

`files = os.listdir(...); for file in files[:1]: if file.endswith(".txt"):
process_transcript(...)` — only the first directory entry is considered. -/

/-- `str.endswith`, over the character lists. -/
def pyEndsWith (s suffix : String) : Bool :=
  suffix.data.isSuffixOf s.data

/-- The files the `__main__` loop actually processes, given the directory
enumeration. -/
def main_selected_files (files : List String) : List String :=
  (files.take 1).filter (fun f => pyEndsWith f ".txt")

/-- The batch loop with a per-file outcome oracle: there is no exception
handler, so the first file whose processing raises aborts the whole run. -/
def main_batch_run (run : String → Outcome) :
    List String → List (String × Outcome)
  | [] => []
  | f :: rest =>
    match run f with
    | .completed => (f, .completed) :: main_batch_run run rest
    | o => [(f, o)]

/-! ## Supporting lemmas -/

theorem moderationLoop_false_iff (flagged : String → Bool) (cs : List String) :
    (moderationLoop flagged cs).1 = false ↔ ∀ c ∈ cs, flagged c = false := by
  induction cs with
  | nil => simp [moderationLoop]
  | cons c rest ih =>
    by_cases h : flagged c
    · simp [moderationLoop, h]
    · simp only [moderationLoop, h, if_false, Bool.if_false_left]
      simp only [List.mem_cons]
      constructor
      · intro hr d hd
        rcases hd with hd | hd
        · subst hd; simpa using h
        · exact ih.mp hr d hd
      · intro hall
        exact ih.mpr (fun d hd => hall d (Or.inr hd))

theorem moderationLoop_log (flagged : String → Bool) (cs : List String) :
    (moderationLoop flagged cs).2 =
      cs.takeWhile (fun c => !flagged c) ++
        (cs.dropWhile (fun c => !flagged c)).take 1 := by
  induction cs with
  | nil => simp [moderationLoop]
  | cons c rest ih =>
    by_cases h : flagged c
    · simp [moderationLoop, h, List.takeWhile_cons, List.dropWhile_cons]
    · simp [moderationLoop, h, List.takeWhile_cons, List.dropWhile_cons, ih]

theorem moderationLoop_true_of_any (flagged : String → Bool)
    (cs : List String) (h : cs.any flagged = true) :
    (moderationLoop flagged cs).1 = true := by
  by_contra hfalse
  rw [Bool.not_eq_true] at hfalse
  rw [(moderationLoop_false_iff flagged cs)] at hfalse
  rcases List.any_eq_true.mp h with ⟨c, hc, hf⟩
  rw [hfalse c hc] at hf
  exact Bool.false_ne_true hf

/-! ## Claim C1 -/

/-- Claim C1: for every chat-completion call and for the moderation gate,
a body that always raises a listed transient error is attempted exactly 3
times and then surfaced as a `RetryError` (a constructor distinct from a
directly raised exception); a non-transient error is surfaced after exactly
1 attempt. -/
theorem c1_retry_policy :
    (∀ (α : Type) (call : Nat → CallResult α),
        (∀ n, ∃ e, call n = .raised e ∧ isRetryableError e = true) →
        (chat_completions_request call).2 = 3 ∧
          ∃ e, (chat_completions_request call).1 = RetryResult.retryError e) ∧
    (∀ (α : Type) (call : Nat → CallResult α) (e : ApiError),
        call 1 = .raised e → isRetryableError e = false →
        (chat_completions_request call).2 = 1 ∧
          (chat_completions_request call).1 = RetryResult.raised e) ∧
    (∀ (modCall : Nat → CallResult Bool) (t : String),
        split_text_advanced t ≠ [] →
        (∀ n, ∃ e, modCall n = .raised e ∧ isRetryableError e = true) →
        (has_moderation_issues_retry modCall t).2.length = 3 ∧
          ∃ e, (has_moderation_issues_retry modCall t).1 =
            RetryResult.retryError e) ∧
    (∀ (modCall : Nat → CallResult Bool) (t : String) (e : ApiError),
        split_text_advanced t ≠ [] →
        modCall 0 = .raised e → isRetryableError e = false →
        (has_moderation_issues_retry modCall t).2.length = 1 ∧
          (has_moderation_issues_retry modCall t).1 = RetryResult.raised e) ∧
    (∀ (e₁ e₂ : ApiError),
        (RetryResult.retryError e₁ : RetryResult Bool) ≠
          RetryResult.raised e₂) := by
  refine ⟨?_, ?_, ?_, ?_, ?_⟩
  · intro α call h
    obtain ⟨e1, h1, r1⟩ := h 1
    obtain ⟨e2, h2, r2⟩ := h 2
    obtain ⟨e3, h3, r3⟩ := h 3
    have : chat_completions_request call = (.retryError e3, 3) := by
      simp [chat_completions_request, tenacityRetry3, tenacityGo,
        h1, r1, h2, r2, h3, r3]
    rw [this]
    exact ⟨rfl, e3, rfl⟩
  · intro α call e h1 hnr
    have : chat_completions_request call = (.raised e, 1) := by
      simp [chat_completions_request, tenacityRetry3, tenacityGo, h1, hnr]
    rw [this]
    exact ⟨rfl, rfl⟩
  · intro modCall t hne h
    obtain ⟨e1, h1, r1⟩ := h 0
    obtain ⟨e2, h2, r2⟩ := h 1
    obtain ⟨e3, h3, r3⟩ := h 2
    rcases hchunks : split_text_advanced t with _ | ⟨c, rest⟩
    · exact absurd hchunks hne
    · have : has_moderation_issues_retry modCall t = (.retryError e3, [0, 0, 0]) := by
        unfold has_moderation_issues_retry
        rw [hchunks]
        simp [hmiRetryGo, moderationScan, h1, r1, h2, r2, h3, r3]
      rw [this]
      exact ⟨rfl, e3, rfl⟩
  · intro modCall t e hne h0 hnr
    rcases hchunks : split_text_advanced t with _ | ⟨c, rest⟩
    · exact absurd hchunks hne
    · have : has_moderation_issues_retry modCall t = (.raised e, [0]) := by
        unfold has_moderation_issues_retry
        rw [hchunks]
        simp [hmiRetryGo, moderationScan, h0, hnr]
      rw [this]
      exact ⟨rfl, rfl⟩
  · intro e₁ e₂ h
    exact RetryResult.noConfusion h

/-- Witness for C1 at concrete oracles: an always-failing connection gives 3
attempts for both the chat call and the moderation gate, and a bad-request
error gives a single attempt. -/
theorem c1_retry_policy_witness :
    (chat_completions_request
        (fun _ => (CallResult.raised .connectionError : CallResult Bool))).2 = 3 ∧
    (has_moderation_issues_retry
        (fun _ => CallResult.raised .connectionError) "x").2.length = 3 ∧
    (chat_completions_request
        (fun _ => (CallResult.raised .badRequestError : CallResult Bool))).2 = 1 := by
  refine ⟨?_, ?_, ?_⟩
  · exact (c1_retry_policy.1 Bool _
      (fun n => ⟨.connectionError, rfl, rfl⟩)).1
  · exact (c1_retry_policy.2.2.1 _ "x" (by decide)
      (fun n => ⟨.connectionError, rfl, rfl⟩)).1
  · exact (c1_retry_policy.2.1 Bool _ .badRequestError rfl rfl).1

/-! ## Claim C5 -/

/-- Claim C5: when some chunk of the transcript is flagged, the gate
returns true, the moderation requests are exactly the chunks up to and
including the first flagged one, the run exits with status 1, and no
chat-completion request or file write is ever issued; the gate returns
false iff every chunk is unflagged. -/
theorem c5_moderation_short_circuit (env : PipelineEnv) (t : String)
    (h : (split_text_advanced t).any env.flagged = true) :
    process_transcript env t =
      (((split_text_advanced t).takeWhile (fun c => !env.flagged c) ++
          ((split_text_advanced t).dropWhile (fun c => !env.flagged c)).take 1).map
          Event.moderationRequest,
        Outcome.exited 1) ∧
    has_moderation_issues env.flagged t = true ∧
    (∀ n, Event.chatRequest n ∉ (process_transcript env t).1) ∧
    (∀ p c, Event.fileSave p c ∉ (process_transcript env t).1) ∧
    (has_moderation_issues env.flagged t = false ↔
      ∀ c ∈ split_text_advanced t, env.flagged c = false) := by
  have h1 : (moderationLoop env.flagged (split_text_advanced t)).1 = true :=
    moderationLoop_true_of_any _ _ h
  have hp : process_transcript env t =
      ((moderationLoop env.flagged (split_text_advanced t)).2.map
        Event.moderationRequest, Outcome.exited 1) := by
    unfold process_transcript
    simp [h1]
  refine ⟨?_, ?_, ?_, ?_, ?_⟩
  · rw [hp, moderationLoop_log]
  · simpa [has_moderation_issues] using h1
  · intro n
    rw [hp]
    simp
  · intro p c
    rw [hp]
    simp
  · simpa [has_moderation_issues] using
      moderationLoop_false_iff env.flagged (split_text_advanced t)

/-- Witness for C5: a transcript with paragraphs `ok`, `bad`, `after` and a
gate flagging `bad` stops after the second moderation request and exits 1. -/
theorem c5_moderation_short_circuit_witness :
    process_transcript ⟨fun c => c == "bad", fun _ => ⟨"", []⟩⟩
        "ok\n\nbad\n\nafter" =
      ([Event.moderationRequest "ok", Event.moderationRequest "bad"],
        Outcome.exited 1) := by
  have h := c5_moderation_short_circuit
    ⟨fun c => c == "bad", fun _ => ⟨"", []⟩⟩ "ok\n\nbad\n\nafter" (by decide)
  rw [h.1]
  decide

/-! ## Claim C7 -/

/-- Claim C7: if moderation passes but the first assistant reply is not
valid JSON, processing stops with the JSON decode error and no output file
is written. -/
theorem c7_malformed_first_response (env : PipelineEnv) (t : String)
    (hclean : ∀ c ∈ split_text_advanced t, env.flagged c = false)
    (hbad : jsonLoads (pyStrip (env.chat 0).content) = none) :
    (process_transcript env t).2 = .error .jsonDecodeError ∧
    ∀ p c, Event.fileSave p c ∉ (process_transcript env t).1 := by
  have h1 : (moderationLoop env.flagged (split_text_advanced t)).1 = false :=
    (moderationLoop_false_iff _ _).mpr hclean
  have hp : process_transcript env t =
      ((moderationLoop env.flagged (split_text_advanced t)).2.map
          Event.moderationRequest ++ [Event.chatRequest 0],
        Outcome.error .jsonDecodeError) := by
    unfold process_transcript
    simp [h1, hbad]
  refine ⟨by rw [hp], ?_⟩
  intro p c
  rw [hp]
  simp

/-- Witness for C7: a first reply of `not json` aborts with the decode
error (and writes nothing). -/
theorem c7_malformed_first_response_witness :
    (process_transcript ⟨fun _ => false, fun _ => ⟨"not json", []⟩⟩
      "hello").2 = .error .jsonDecodeError := by
  exact (c7_malformed_first_response ⟨fun _ => false, fun _ => ⟨"not json", []⟩⟩
    "hello" (by decide) (by decide)).1

/-! ## Claim C8 -/

/-- Claim C8 (failing input): the `__main__` loop slices `files[:1]`, so
with the enumeration `[a.txt, b.txt]` only `a.txt` is processed, and with
`[x.json, a.txt]` no transcript is processed at all — contradicting "every
`*.txt` file in the directory is processed regardless of enumeration
order". -/
theorem c8_first_file_only :
    main_selected_files ["a.txt", "b.txt"] = ["a.txt"] ∧
    "b.txt" ∉ main_selected_files ["a.txt", "b.txt"] ∧
    main_selected_files ["x.json", "a.txt"] = [] := by decide

/-! ## Claim C9 -/

/-- One retry step of the decorated moderation gate: a transient failure
with attempts remaining restarts the scan with the log carried over. -/
theorem hmiRetryGo_succ_step (modCall : Nat → CallResult Bool)
    (chunks : List String) (r k : Nat) (log : List Nat) (e : ApiError)
    (reqs : List Nat)
    (hscan : moderationScan modCall chunks k 0 = (.raised e, reqs))
    (hr : isRetryableError e = true) :
    hmiRetryGo modCall chunks (r + 1) k log =
      hmiRetryGo modCall chunks r (k + reqs.length) (log ++ reqs) := by
  simp only [hmiRetryGo, hscan, hr, if_true]

/-- Every log produced by the retry wrapper extends the accumulator. -/
theorem hmiRetryGo_log_extends (modCall : Nat → CallResult Bool)
    (chunks : List String) :
    ∀ rem k log, ∃ tail,
      (hmiRetryGo modCall chunks rem k log).2 = log ++ tail := by
  intro rem
  induction rem with
  | zero =>
    intro k log
    rcases hscan : moderationScan modCall chunks k 0 with ⟨b | e, reqs⟩
    · exact ⟨reqs, by simp [hmiRetryGo, hscan]⟩
    · by_cases hr : isRetryableError e
      · exact ⟨reqs, by simp [hmiRetryGo, hscan, hr]⟩
      · exact ⟨reqs, by simp [hmiRetryGo, hscan, hr]⟩
  | succ r ih =>
    intro k log
    rcases hscan : moderationScan modCall chunks k 0 with ⟨b | e, reqs⟩
    · exact ⟨reqs, by simp [hmiRetryGo, hscan]⟩
    · by_cases hr : isRetryableError e
      · obtain ⟨t2, ht2⟩ := ih (k + reqs.length) (log ++ reqs)
        refine ⟨reqs ++ t2, ?_⟩
        simp only [hmiRetryGo, hscan, hr, if_true]
        rw [ht2, List.append_assoc]
      · exact ⟨reqs, by simp [hmiRetryGo, hscan, hr]⟩

/-- A scan over a nonempty chunk list always requests chunk 0 first. -/
theorem moderationScan_zero_mem (modCall : Nat → CallResult Bool)
    (chunks : List String) (k : Nat) (hne : chunks ≠ []) :
    0 ∈ (moderationScan modCall chunks k 0).2 := by
  rcases chunks with _ | ⟨c, rest⟩
  · exact absurd rfl hne
  · rcases hm : modCall k with b | e
    · by_cases hb : b
      · simp [moderationScan, hm, hb]
      · simp [moderationScan, hm, hb]
    · simp [moderationScan, hm]

/-- Counterexample to C9 as stated: with two chunks, a successful request
for chunk 0 followed by a transient failure on chunk 1 re-issues the
request for chunk 0 on the retry (the decorator wraps the whole scan, not
the single request), so chunk 0 is requested twice. -/
theorem c9_counterexample :
    (has_moderation_issues_retry
        (fun k => if k = 1 then .raised .connectionError else .ok false)
        "a\n\nb").1 = .ok false ∧
    (has_moderation_issues_retry
        (fun k => if k = 1 then .raised .connectionError else .ok false)
        "a\n\nb").2 = [0, 1, 0, 1] ∧
    (has_moderation_issues_retry
        (fun k => if k = 1 then .raised .connectionError else .ok false)
        "a\n\nb").2.count 0 = 2 := by decide

/-- Claim C9 as amended: the retry policy wraps each chat-completion call
as one unit, but for moderation it wraps the whole chunk scan, so a
transient failure during the first scan makes the gate re-issue the request
for the first chunk: chunk 0 appears at least twice in the request log. -/
theorem c9_scan_level_retry (modCall : Nat → CallResult Bool) (t : String)
    (hne : split_text_advanced t ≠ [])
    (hfail : ∃ e,
      (moderationScan modCall (split_text_advanced t) 0 0).1 = .raised e ∧
        isRetryableError e = true) :
    2 ≤ (has_moderation_issues_retry modCall t).2.count 0 := by
  obtain ⟨e, he, hr⟩ := hfail
  rcases hscan : moderationScan modCall (split_text_advanced t) 0 0 with ⟨r1, reqs1⟩
  have hr1 : r1 = CallResult.raised e := by rw [hscan] at he; exact he
  subst hr1
  have h0a : 0 ∈ reqs1 := by
    have := moderationScan_zero_mem modCall (split_text_advanced t) 0 hne
    rw [hscan] at this
    exact this
  rcases hscan2 : moderationScan modCall (split_text_advanced t) reqs1.length 0 with
    ⟨r2, reqs2⟩
  have h0b : 0 ∈ reqs2 := by
    have := moderationScan_zero_mem modCall (split_text_advanced t) reqs1.length hne
    rw [hscan2] at this
    exact this
  have hstep : has_moderation_issues_retry modCall t =
      hmiRetryGo modCall (split_text_advanced t) 1 reqs1.length reqs1 := by
    unfold has_moderation_issues_retry
    rw [show (2 : Nat) = 1 + 1 from rfl,
      hmiRetryGo_succ_step modCall (split_text_advanced t) 1 0 [] e reqs1
        hscan hr]
    simp
  obtain ⟨tail, htail⟩ : ∃ tail,
      (hmiRetryGo modCall (split_text_advanced t) 1 reqs1.length reqs1).2 =
        reqs1 ++ reqs2 ++ tail := by
    rcases r2 with b | e2
    · exact ⟨[], by simp [hmiRetryGo, hscan2]⟩
    · by_cases hr2 : isRetryableError e2
      · obtain ⟨t3, ht3⟩ := hmiRetryGo_log_extends modCall
          (split_text_advanced t) 0 (reqs1.length + reqs2.length)
          (reqs1 ++ reqs2)
        refine ⟨t3, ?_⟩
        rw [show (1 : Nat) = 0 + 1 from rfl,
          hmiRetryGo_succ_step modCall (split_text_advanced t) 0
            reqs1.length reqs1 e2 reqs2 hscan2 hr2]
        exact ht3
      · exact ⟨[], by simp [hmiRetryGo, hscan2, hr2]⟩
  rw [hstep, htail]
  have hc1 : 1 ≤ reqs1.count 0 := List.one_le_count_iff.mpr h0a
  have hc2 : 1 ≤ reqs2.count 0 := List.one_le_count_iff.mpr h0b
  simp only [List.count_append]
  omega

/-- Witness for C9's amended claim at the counterexample oracle. -/
theorem c9_scan_level_retry_witness :
    2 ≤ (has_moderation_issues_retry
        (fun k => if k = 1 then .raised .connectionError else .ok false)
        "a\n\nb").2.count 0 := by
  exact c9_scan_level_retry _ "a\n\nb" (by decide)
    ⟨.connectionError, by decide, rfl⟩

/-! ## Counterexamples for C2, C4, C10 -/

/-- Counterexample to C2 as stated: `2024-1-1T0:0:0Z` is not in strict
`YYYY-MM-DDTHH:MM:SSZ` form (wrong length, single-digit fields), yet
`get_scheduled_date` accepts it — `strptime` field regexes allow
single-digit months/days/times — instead of failing. -/
theorem c2_counterexample :
    get_scheduled_date "2024-1-1T0:0:0Z" = some "2024-01-08T00:00:00Z" ∧
    ¬ isStrictIso "2024-1-1T0:0:0Z" := by
  constructor
  · decide
  · rintro ⟨dt, hv, he⟩
    have h2 : (strictFormat dt).length = 20 := by
      simp [strictFormat, String.length, pad4, pad2]
    rw [← he] at h2
    exact absurd h2 (by decide)

/-- Counterexample to C4 as stated: a single word longer than the limit is
not kept intact as one oversize chunk; `textwrap.wrap`'s default
`break_long_words=True` splits it into limit-sized pieces. -/
theorem c4_counterexample :
    split_text_advanced "abcdefgh" 3 = ["abc", "def", "gh"] ∧
    "abcdefgh" ∉ split_text_advanced "abcdefgh" 3 := by decide

/-- Counterexample to C10 as stated: with a word longer than the limit, a
nonempty whitespace-only chunk can be emitted (`'  abc'` at limit 2). -/
theorem c10_counterexample :
    split_text_advanced "  abc" 2 = ["  ", "ab", "c"] ∧
    "  " ∈ split_text_advanced "  abc" 2 ∧
    "  ".data.all isPyWS = true ∧ "  " ≠ "" := by decide

/-! ## Claim C6 -/

/-- Structural induction for `JsonMembers` alone (the mutual recursor has
several motives, which the `induction` tactic cannot use directly). -/
@[induction_eliminator]
theorem JsonMembers.inductionOn {P : JsonMembers → Prop} (nil : P .nil)
    (cons : ∀ k v tl, P tl → P (.cons k v tl)) : ∀ m, P m
  | .nil => nil
  | .cons k v tl => cons k v tl (JsonMembers.inductionOn nil cons tl)

theorem memLookup_memInsert (m : JsonMembers) (k : String) (v : Json)
    (k' : String) :
    memLookup (memInsert m k v) k' =
      if k' = k then some v else memLookup m k' := by
  induction m with
  | nil =>
    simp [memInsert, memLookup]
  | cons k0 v0 tl ih =>
    by_cases h : k = k0
    · subst h
      by_cases h' : k' = k <;> simp [memInsert, memLookup, h']
    · by_cases h' : k' = k0
      · subst h'
        have : ¬ k' = k := fun hk => h (hk ▸ rfl)
        simp [memInsert, memLookup, h, this]
      · simp [memInsert, memLookup, h, h', ih]

theorem mem_memKeys_memInsert (m : JsonMembers) (k : String) (v : Json)
    (k' : String) :
    k' ∈ memKeys (memInsert m k v) ↔ k' = k ∨ k' ∈ memKeys m := by
  induction m with
  | nil => simp [memInsert, memKeys]
  | cons k0 v0 tl ih =>
    by_cases h : k = k0
    · subst h
      simp [memInsert, memKeys]
    · simp [memInsert, memKeys, h, ih]
      tauto

theorem memLookup_eq_none_iff (m : JsonMembers) (k : String) :
    memLookup m k = none ↔ k ∉ memKeys m := by
  induction m with
  | nil => simp [memLookup, memKeys]
  | cons k0 v0 tl ih =>
    by_cases h : k = k0
    · subst h; simp [memLookup, memKeys]
    · simp [memLookup, memKeys, h, ih]

theorem memKeys_memInsert_nodup (m : JsonMembers) (k : String) (v : Json) :
    (memKeys m).Nodup → (memKeys (memInsert m k v)).Nodup := by
  induction m with
  | nil => intro _; simp [memInsert, memKeys]
  | cons k0 v0 tl ih =>
    intro h
    rcases List.nodup_cons.mp h with ⟨hk0, htl⟩
    by_cases hkk : k = k0
    · subst hkk
      simpa [memInsert, memKeys] using h
    · have hshape : memKeys (memInsert (JsonMembers.cons k0 v0 tl) k v) =
          k0 :: memKeys (memInsert tl k v) := by
        simp [memInsert, hkk, memKeys]
      rw [hshape]
      refine List.nodup_cons.mpr ⟨?_, ih htl⟩
      rw [mem_memKeys_memInsert]
      rintro (h1 | h2)
      · exact hkk h1.symm
      · exact hk0 h2

theorem memLookup_memUpdate (o2 : JsonMembers) :
    ∀ o1 : JsonMembers, (memKeys o2).Nodup → ∀ k : String,
      memLookup (memUpdate o1 o2) k =
        ((memLookup o2 k).or (memLookup o1 k)) := by
  induction o2 with
  | nil => intro o1 _ k; simp [memUpdate, memLookup]
  | cons k0 v0 tl ih =>
    intro o1 hnd k
    rcases List.nodup_cons.mp hnd with ⟨hk0, htl⟩
    rw [show memUpdate o1 (JsonMembers.cons k0 v0 tl) =
        memUpdate (memInsert o1 k0 v0) tl from rfl]
    rw [ih (memInsert o1 k0 v0) htl k]
    by_cases h : k = k0
    · subst h
      have h2 : memLookup tl k = none :=
        (memLookup_eq_none_iff tl k).mpr (by simpa [memKeys] using hk0)
      simp [memLookup, h2, memLookup_memInsert]
    · simp [memLookup, h, memLookup_memInsert]

theorem mem_memKeys_memUpdate (o1 o2 : JsonMembers) (k : String) :
    k ∈ memKeys (memUpdate o1 o2) ↔
      k ∈ memKeys o1 ∨ k ∈ memKeys o2 := by
  induction o2 generalizing o1 with
  | nil => simp [memUpdate, memKeys]
  | cons k0 v0 tl ih =>
    rw [show memUpdate o1 (JsonMembers.cons k0 v0 tl) =
        memUpdate (memInsert o1 k0 v0) tl from rfl]
    rw [ih (memInsert o1 k0 v0)]
    simp [memKeys, mem_memKeys_memInsert]
    tauto

/-- Objects assembled by `scanJsonObjectItems` have distinct keys (Python
dicts collapse duplicates on insertion). -/
theorem scanJsonObjectItems_nodup :
    ∀ (fuel : Nat) (acc : JsonMembers) (s : List Char) (ms : JsonMembers)
      (r : List Char),
      scanJsonObjectItems fuel acc s = some (ms, r) →
      (memKeys acc).Nodup → (memKeys ms).Nodup := by
  intro fuel
  induction fuel with
  | zero =>
    intro acc s ms r h
    simp [scanJsonObjectItems] at h
  | succ f ih =>
    intro acc s ms r h hacc
    unfold scanJsonObjectItems at h
    split at h
    next rest =>
      rcases hstr : scanJsonString (rest.length + 1) [] rest with _ | ⟨key, rest1⟩
      · rw [hstr] at h; simp at h
      · rw [hstr] at h
        simp only [] at h
        split at h
        next rest2 hw =>
          rcases hval : scanJsonValue f (skipJsonWS rest2) with _ | ⟨v, rest3⟩
          · rw [hval] at h; simp at h
          · rw [hval] at h
            simp only [] at h
            split at h
            next rest4 hw2 =>
              simp only [Option.some.injEq, Prod.mk.injEq] at h
              rcases h with ⟨h1, h2⟩
              subst h1
              exact memKeys_memInsert_nodup acc key v hacc
            next rest4 hw2 =>
              exact ih _ _ _ _ h (memKeys_memInsert_nodup acc key v hacc)
            next hw2 =>
              exact absurd h (by simp)
        next hw =>
          exact absurd h (by simp)
    next hns =>
      exact absurd h (by simp)

/-- A parsed top-level object has distinct keys. -/
theorem scanJsonValue_obj_nodup (fuel : Nat) (s : List Char)
    (ms : JsonMembers) (r : List Char)
    (h : scanJsonValue fuel s = some (.obj ms, r)) : (memKeys ms).Nodup := by
  cases fuel with
  | zero => simp [scanJsonValue] at h
  | succ f =>
    unfold scanJsonValue at h
    split at h
    next rest => simp at h
    next rest => simp at h
    next rest => simp at h
    next rest =>
      rcases hstr : scanJsonString (rest.length + 1) [] rest with _ | p <;>
        rw [hstr] at h <;> simp at h
    next rest =>
      simp only [] at h
      split at h
      next rest2 => simp at h
      next hw =>
        rcases harr : scanJsonArrayItems f (skipJsonWS rest) with _ | p <;>
          rw [harr] at h
        · simp at h
        · simp only [] at h
          simp only [Option.some.injEq, Prod.mk.injEq] at h
          exact absurd h.1 (by simp)
    next rest =>
      simp only [] at h
      split at h
      next rest2 =>
        simp only [Option.some.injEq, Prod.mk.injEq] at h
        rcases h with ⟨h1, h2⟩
        have hnil : JsonMembers.nil = ms := by
          injection h1
        rw [← hnil]
        simp [memKeys]
      next hw =>
        rcases hobj : scanJsonObjectItems f .nil (skipJsonWS rest) with _ | p <;>
          rw [hobj] at h
        · simp at h
        · simp only [] at h
          rcases p with ⟨pms, pr⟩
          simp only [Option.some.injEq, Prod.mk.injEq] at h
          rcases h with ⟨h1, h2⟩
          have hpm : pms = ms := by
            injection h1
          subst hpm
          exact scanJsonObjectItems_nodup f .nil _ _ _ hobj (by simp [memKeys])
    next hns =>
      rcases hint : scanJsonInt s with _ | p <;> rw [hint] at h <;> simp at h

/-- `json.loads` never returns an object with duplicate keys. -/
theorem jsonLoads_obj_nodup (s : String) (ms : JsonMembers)
    (h : jsonLoads s = some (.obj ms)) : (memKeys ms).Nodup := by
  unfold jsonLoads at h
  rcases hv : scanJsonValue (s.length + 1) (skipJsonWS s.data) with _ | ⟨v, rest⟩
  · rw [hv] at h; simp at h
  · rw [hv] at h
    simp only [] at h
    split at h
    · rcases h with h1
      have hveq : v = Json.obj ms := by
        injection h
      rw [hveq] at hv
      exact scanJsonValue_obj_nodup _ _ _ _ hv
    · simp at h

/-- The tool-call loop only appends events. -/
theorem processToolCalls_events_extends :
    ∀ (tcs : List ToolCallM) (events : List Event) (n : Nat),
      ∃ tail, (processToolCalls tcs events n).1 = events ++ tail := by
  intro tcs
  induction tcs with
  | nil => intro ev n; exact ⟨[], by simp [processToolCalls]⟩
  | cons tc rest ih =>
    intro ev n
    unfold processToolCalls
    by_cases hn : tc.name = "schedule_follow_up"
    · simp only [hn, if_true]
      rcases hl : jsonLoads tc.arguments with _ | j
      · exact ⟨[], by simp⟩
      · rcases j with _ | b | i | st | xs | args
        · exact ⟨[], by simp⟩
        · exact ⟨[], by simp⟩
        · exact ⟨[], by simp⟩
        · exact ⟨[], by simp⟩
        · exact ⟨[], by simp⟩
        · rcases hdate : (memLookup args "interview_date").getD .null with
            _ | b | i | ds | xs | o
          · exact ⟨[], by simp [hdate]⟩
          · exact ⟨[], by simp [hdate]⟩
          · exact ⟨[], by simp [hdate]⟩
          · rcases hsch : get_scheduled_date ds with _ | nd
            · exact ⟨[], by simp [hdate, hsch]⟩
            · obtain ⟨t2, ht2⟩ := ih (ev ++ [Event.chatRequest n]) (n + 1)
              refine ⟨Event.chatRequest n :: t2, ?_⟩
              simp only [hdate, hsch]
              rw [ht2, List.append_assoc]
              simp
          · exact ⟨[], by simp [hdate]⟩
          · exact ⟨[], by simp [hdate]⟩
    · simp only [hn, if_false]
      exact ih ev n

/-- Claim C6: when the two extraction replies parse as JSON objects, the
merged InfoObject holds every key of both passes with the second pass's
value winning on collision, and it is persisted (as indented JSON) at
`output/{candidate}-{datetime}.json`. -/
theorem c6_merge_and_persist (env : PipelineEnv) (t : String)
    (o1 o2 : JsonMembers) (cand dt : String)
    (hclean : ∀ c ∈ split_text_advanced t, env.flagged c = false)
    (h1 : jsonLoads (pyStrip (env.chat 0).content) = some (.obj o1))
    (h2 : jsonLoads (pyStrip (env.chat 1).content) = some (.obj o2))
    (hc : memLookup (memUpdate o1 o2) "candidate" = some (.str cand))
    (hd : memLookup (memUpdate o1 o2) "datetime" = some (.str dt)) :
    Event.fileSave ("output/" ++ cand ++ "-" ++ dt ++ ".json")
        (jsonDumpsIndent4 (.obj (memUpdate o1 o2)))
      ∈ (process_transcript env t).1 ∧
    (∀ k, memLookup (memUpdate o1 o2) k =
        ((memLookup o2 k).or (memLookup o1 k))) ∧
    (∀ k, k ∈ memKeys (memUpdate o1 o2) ↔
        k ∈ memKeys o1 ∨ k ∈ memKeys o2) := by
  have hgate : (moderationLoop env.flagged (split_text_advanced t)).1 = false :=
    (moderationLoop_false_iff _ _).mpr hclean
  refine ⟨?_, ?_, ?_⟩
  · have hp : (process_transcript env t) =
        processToolCalls (env.chat 2).tool_calls
          ((moderationLoop env.flagged (split_text_advanced t)).2.map
              Event.moderationRequest ++ [Event.chatRequest 0] ++
            [Event.chatRequest 1] ++
            [Event.fileSave ("output/" ++ cand ++ "-" ++ dt ++ ".json")
                (jsonDumpsIndent4 (.obj (memUpdate o1 o2))),
              Event.chatRequest 2]) 3 := by
      unfold process_transcript
      simp [hgate, h1, h2, hc, hd, pyStrOfJson]
    rw [hp]
    obtain ⟨tail, htail⟩ := processToolCalls_events_extends
      (env.chat 2).tool_calls _ 3
    rw [htail]
    simp
  · exact memLookup_memUpdate o2 o1 (jsonLoads_obj_nodup _ o2 h2)
  · intro k
    rw [mem_memKeys_memUpdate]

/-- Witness for C6: first pass `candidate=A, datetime=D1`, second pass
`sentiment=positive`; the merged record keeps all three keys and is written
to `output/A-D1.json`. -/
theorem c6_merge_and_persist_witness :
    Event.fileSave ("output/" ++ "A" ++ "-" ++ "D1" ++ ".json")
        (jsonDumpsIndent4 (.obj (memUpdate
          (.cons "candidate" (.str "A") (.cons "datetime" (.str "D1") .nil))
          (.cons "sentiment" (.str "positive") .nil))))
      ∈ (process_transcript
          ⟨fun _ => false,
           fun n =>
             if n = 0 then
               ⟨" \x7b\"candidate\": \"A\", \"datetime\": \"D1\"\x7d ", []⟩
             else if n = 1 then ⟨"\x7b\"sentiment\": \"positive\"\x7d", []⟩
             else ⟨"done", []⟩⟩ "hi").1 ∧
    jsonDumpsIndent4 (.obj (memUpdate
        (.cons "candidate" (.str "A") (.cons "datetime" (.str "D1") .nil))
        (.cons "sentiment" (.str "positive") .nil))) =
      "\x7b\n    \"candidate\": \"A\",\n    \"datetime\": \"D1\",\n    \"sentiment\": \"positive\"\n\x7d" := by
  constructor
  · exact (c6_merge_and_persist _ "hi"
      (.cons "candidate" (.str "A") (.cons "datetime" (.str "D1") .nil))
      (.cons "sentiment" (.str "positive") .nil) "A" "D1"
      (by intro c _; rfl) (by decide) (by decide) (by decide) (by decide)).1
  · decide

/-! ## Claim C2 (amended): supporting lemmas -/

theorem digitChar_isDigit (d : Nat) (h : d ≤ 9) : (digitChar d).isDigit = true := by
  interval_cases d <;> decide

theorem digitVal_digitChar (d : Nat) (h : d ≤ 9) : digitVal (digitChar d) = d := by
  interval_cases d <;> decide

theorem firstCand_monthCands (n : Nat) (h1 : 1 ≤ n) (h2 : n ≤ 12)
    (rest : List Char) (k : Nat → List Char → Option DateTimeM)
    (x : DateTimeM) (hk : k n rest = some x) :
    firstCand (monthCands (pad2 n ++ rest)) k = some x := by
  interval_cases n <;>
    simp +decide [monthCands, fieldCands, alt2, alt1, altSpaceDigit, pad2,
      digitChar, digitVal, firstCand, hk]

theorem firstCand_dayCands (n : Nat) (h1 : 1 ≤ n) (h2 : n ≤ 31)
    (rest : List Char) (k : Nat → List Char → Option DateTimeM)
    (x : DateTimeM) (hk : k n rest = some x) :
    firstCand (dayCands (pad2 n ++ rest)) k = some x := by
  interval_cases n <;>
    simp +decide [dayCands, fieldCands, alt2, alt1, altSpaceDigit, pad2,
      digitChar, digitVal, firstCand, hk]

theorem firstCand_hourCands (n : Nat) (h : n ≤ 23)
    (rest : List Char) (k : Nat → List Char → Option DateTimeM)
    (x : DateTimeM) (hk : k n rest = some x) :
    firstCand (hourCands (pad2 n ++ rest)) k = some x := by
  interval_cases n <;>
    simp +decide [hourCands, fieldCands, alt2, alt1, altSpaceDigit, pad2,
      digitChar, digitVal, firstCand, hk]

theorem firstCand_minuteCands (n : Nat) (h : n ≤ 59)
    (rest : List Char) (k : Nat → List Char → Option DateTimeM)
    (x : DateTimeM) (hk : k n rest = some x) :
    firstCand (minuteCands (pad2 n ++ rest)) k = some x := by
  interval_cases n <;>
    simp +decide [minuteCands, fieldCands, alt2, alt1, altSpaceDigit, pad2,
      digitChar, digitVal, firstCand, hk]

theorem firstCand_secondCands (n : Nat) (h : n ≤ 59)
    (rest : List Char) (k : Nat → List Char → Option DateTimeM)
    (x : DateTimeM) (hk : k n rest = some x) :
    firstCand (secondCands (pad2 n ++ rest)) k = some x := by
  interval_cases n <;>
    simp +decide [secondCands, fieldCands, alt2, alt1, altSpaceDigit, pad2,
      digitChar, digitVal, firstCand, hk]

theorem parseSecondStage_format (y m d h mi sec : Nat) (hs : sec ≤ 59) :
    parseSecondStage y m d h mi (pad2 sec ++ ['Z']) =
      some ⟨y, m, d, h, mi, sec⟩ := by
  unfold parseSecondStage
  refine firstCand_secondCands sec hs _ _ _ ?_
  simp +decide [expectLit]

theorem parseMinuteStage_format (y m d h mi sec : Nat) (hmi : mi ≤ 59)
    (hs : sec ≤ 59) :
    parseMinuteStage y m d h (pad2 mi ++ ':' :: (pad2 sec ++ ['Z'])) =
      some ⟨y, m, d, h, mi, sec⟩ := by
  unfold parseMinuteStage
  refine firstCand_minuteCands mi hmi _ _ _ ?_
  simp +decide only [expectLit]
  exact parseSecondStage_format y m d h mi sec hs

theorem parseHourStage_format (y m d h mi sec : Nat) (hh : h ≤ 23)
    (hmi : mi ≤ 59) (hs : sec ≤ 59) :
    parseHourStage y m d
        (pad2 h ++ ':' :: (pad2 mi ++ ':' :: (pad2 sec ++ ['Z']))) =
      some ⟨y, m, d, h, mi, sec⟩ := by
  unfold parseHourStage
  refine firstCand_hourCands h hh _ _ _ ?_
  simp +decide only [expectLit]
  exact parseMinuteStage_format y m d h mi sec hmi hs

theorem parseDayStage_format (y m d h mi sec : Nat) (hd1 : 1 ≤ d)
    (hd2 : d ≤ 31) (hh : h ≤ 23) (hmi : mi ≤ 59) (hs : sec ≤ 59) :
    parseDayStage y m
        (pad2 d ++ 'T' ::
          (pad2 h ++ ':' :: (pad2 mi ++ ':' :: (pad2 sec ++ ['Z'])))) =
      some ⟨y, m, d, h, mi, sec⟩ := by
  unfold parseDayStage
  refine firstCand_dayCands d hd1 hd2 _ _ _ ?_
  simp +decide only [expectLit]
  exact parseHourStage_format y m d h mi sec hh hmi hs

theorem parseMonthStage_format (y m d h mi sec : Nat) (hm1 : 1 ≤ m)
    (hm2 : m ≤ 12) (hd1 : 1 ≤ d) (hd2 : d ≤ 31) (hh : h ≤ 23)
    (hmi : mi ≤ 59) (hs : sec ≤ 59) :
    parseMonthStage y
        (pad2 m ++ '-' ::
          (pad2 d ++ 'T' ::
            (pad2 h ++ ':' :: (pad2 mi ++ ':' :: (pad2 sec ++ ['Z']))))) =
      some ⟨y, m, d, h, mi, sec⟩ := by
  unfold parseMonthStage
  refine firstCand_monthCands m hm1 hm2 _ _ _ ?_
  simp +decide only [expectLit]
  exact parseDayStage_format y m d h mi sec hd1 hd2 hh hmi hs

/-- Parsing the strict rendering of a bounded date-time gives it back. -/
theorem strptimeZ_roundtrip (y m d h mi sec : Nat) (hm1 : 1 ≤ m)
    (hm2 : m ≤ 12) (hd1 : 1 ≤ d) (hd2 : d ≤ 31) (hh : h ≤ 23)
    (hmi : mi ≤ 59) (hs : sec ≤ 59) (hy : y ≤ 9999) :
    strptimeZ (strictFormat ⟨y, m, d, h, mi, sec⟩).data =
      some ⟨y, m, d, h, mi, sec⟩ := by
  have hdata : (strictFormat (⟨y, m, d, h, mi, sec⟩ : DateTimeM)).data =
      digitChar (y / 1000 % 10) :: digitChar (y / 100 % 10) ::
        digitChar (y / 10 % 10) :: digitChar (y % 10) :: '-' ::
        (pad2 m ++ '-' ::
          (pad2 d ++ 'T' ::
            (pad2 h ++ ':' :: (pad2 mi ++ ':' :: (pad2 sec ++ ['Z']))))) := by
    simp [strictFormat, pad4]
  rw [hdata]
  have e1 : y / 1000 % 10 ≤ 9 := by omega
  have e2 : y / 100 % 10 ≤ 9 := by omega
  have e3 : y / 10 % 10 ≤ 9 := by omega
  have e4 : y % 10 ≤ 9 := by omega
  simp only [strptimeZ, digitChar_isDigit _ e1, digitChar_isDigit _ e2,
    digitChar_isDigit _ e3, digitChar_isDigit _ e4, Bool.and_self, if_true,
    digitVal_digitChar _ e1, digitVal_digitChar _ e2, digitVal_digitChar _ e3,
    digitVal_digitChar _ e4]
  simp +decide only [expectLit]
  have hval : ((y / 1000 % 10 * 10 + y / 100 % 10) * 10 + y / 10 % 10) * 10 +
      y % 10 = y := by omega
  rw [hval]
  exact parseMonthStage_format y m d h mi sec hm1 hm2 hd1 hd2 hh hmi hs

theorem daysInMonth_le (y m : Nat) : daysInMonth y m ≤ 31 := by
  unfold daysInMonth
  split <;> first | omega | (split <;> omega)

theorem one_le_daysInMonth (y m : Nat) : 1 ≤ daysInMonth y m := by
  unfold daysInMonth
  split <;> first | omega | (split <;> omega)

/-- Calendar validity (no year upper bound, so it is preserved by
`nextDay`). -/
def calValid (dt : DateTimeM) : Prop :=
  1 ≤ dt.year ∧ 1 ≤ dt.month ∧ dt.month ≤ 12 ∧ 1 ≤ dt.day ∧
    dt.day ≤ daysInMonth dt.year dt.month

theorem calValid_nextDay (dt : DateTimeM) (hv : calValid dt) :
    calValid (nextDay dt) := by
  rcases dt with ⟨y, m, d, h, mi, sec⟩
  obtain ⟨hy, hm1, hm2, hd1, hd2⟩ := hv
  simp only [calValid] at *
  unfold nextDay
  split_ifs with h1 h2 <;> simp only at * <;>
    exact ⟨by omega, by omega, by omega, by omega,
      by first | omega | exact one_le_daysInMonth _ _⟩

theorem nextDay_year_ge (dt : DateTimeM) : dt.year ≤ (nextDay dt).year := by
  rcases dt with ⟨y, m, d, h, mi, sec⟩
  unfold nextDay
  split_ifs <;> simp only <;> omega

/-- The rata-die ordinal increases by exactly one at `nextDay`, across
month and year rollovers and leap days. -/
theorem toOrdinal_nextDay (dt : DateTimeM) (hv : calValid dt) :
    toOrdinal (nextDay dt) = toOrdinal dt + 1 := by
  obtain ⟨hy, hm1, hm2, hd1, hd2⟩ := hv
  rcases dt with ⟨y, m, d, h, mi, sec⟩
  simp only at hy hm1 hm2 hd1 hd2
  unfold nextDay
  split_ifs with hlt hm12
  · simp only [toOrdinal]
    omega
  · -- month rollover: d = daysInMonth y m, m < 12
    have hdeq : d = daysInMonth y m := by
      simp only at hlt
      omega
    simp only [toOrdinal]
    rw [hdeq]
    have key : daysBeforeMonth y (m + 1) + 1 =
        daysBeforeMonth y m + daysInMonth y m + 1 := by
      simp only at hm12
      interval_cases m <;>
        rcases hL : isLeapYear y with _ | _ <;>
          simp +decide [daysBeforeMonth, daysInMonth, hL]
    omega
  · -- year rollover: m = 12, d = 31
    have hm : m = 12 := by simp only at hm12; omega
    have hd : d = 31 := by
      subst hm
      simp only [daysInMonth] at hlt hd2
      omega
    subst hm
    subst hd
    simp only [toOrdinal, daysBeforeMonth, leapsBefore]
    have hleap : (isLeapYear y = true ∧ (y % 4 = 0 ∧ ¬ y % 100 = 0 ∨ y % 400 = 0)) ∨
        (isLeapYear y = false ∧ ¬(y % 4 = 0 ∧ ¬ y % 100 = 0 ∨ y % 400 = 0)) := by
      rcases hL : isLeapYear y with _ | _
      · right
        refine ⟨rfl, ?_⟩
        simp [isLeapYear, Bool.or_eq_true, Bool.and_eq_true,
          decide_eq_true_eq] at hL
        tauto
      · left
        refine ⟨rfl, ?_⟩
        simp [isLeapYear, Bool.or_eq_true, Bool.and_eq_true,
          decide_eq_true_eq] at hL
        tauto
    rcases hleap with ⟨hL, hp⟩ | ⟨hL, hp⟩ <;> simp +decide [hL] <;> omega

theorem toOrdinal_addDays (n : Nat) (dt : DateTimeM) (hv : calValid dt) :
    toOrdinal (addDays n dt) = toOrdinal dt + n := by
  induction n generalizing dt with
  | zero => simp [addDays]
  | succ k ih =>
    have h1 : addDays (k + 1) dt = addDays k (nextDay dt) := rfl
    rw [h1, ih (nextDay dt) (calValid_nextDay dt hv),
      toOrdinal_nextDay dt hv]
    omega

theorem addDays_year_ge (n : Nat) (dt : DateTimeM) :
    dt.year ≤ (addDays n dt).year := by
  induction n generalizing dt with
  | zero => simp [addDays]
  | succ k ih =>
    have h1 : addDays (k + 1) dt = addDays k (nextDay dt) := rfl
    rw [h1]
    exact le_trans (nextDay_year_ge dt) (ih (nextDay dt))

theorem calValid_addDays (n : Nat) (dt : DateTimeM) (hv : calValid dt) :
    calValid (addDays n dt) := by
  induction n generalizing dt with
  | zero => simpa [addDays] using hv
  | succ k ih =>
    have h1 : addDays (k + 1) dt = addDays k (nextDay dt) := rfl
    rw [h1]
    exact ih (nextDay dt) (calValid_nextDay dt hv)

theorem natDecimalGo_step (fuel n : Nat) (hf : 1 ≤ fuel) (h : 10 ≤ n) :
    natDecimalGo fuel n = natDecimalGo (fuel - 1) (n / 10) ++
      [digitChar (n % 10)] := by
  rcases fuel with _ | f
  · omega
  · simp [natDecimalGo, show ¬ n < 10 by omega]

theorem natDecimalGo_small (fuel n : Nat) (hf : 1 ≤ fuel) (h : n < 10) :
    natDecimalGo fuel n = [digitChar n] := by
  rcases fuel with _ | f
  · omega
  · simp [natDecimalGo, h]

/-- For four-digit years glibc `%Y` and the zero-padded rendering agree. -/
theorem natDecimal_eq_pad4 (y : Nat) (h1 : 1000 ≤ y) (h2 : y ≤ 9999) :
    natDecimal y = pad4 y := by
  unfold natDecimal
  rw [natDecimalGo_step (y + 1) y (by omega) (by omega)]
  rw [natDecimalGo_step (y + 1 - 1) (y / 10) (by omega) (by omega)]
  rw [natDecimalGo_step (y + 1 - 1 - 1) (y / 10 / 10) (by omega)
    (by rw [Nat.div_div_eq_div_mul]; omega)]
  rw [natDecimalGo_small (y + 1 - 1 - 1 - 1) (y / 10 / 10 / 10) (by omega)
    (by rw [Nat.div_div_eq_div_mul, Nat.div_div_eq_div_mul]; omega)]
  simp only [Nat.div_div_eq_div_mul]
  have e1 : y / (10 * 10 * 10) = y / 1000 % 10 := by omega
  have e2 : y / (10 * 10) % 10 = y / 100 % 10 := by omega
  rw [e1, e2]
  simp [pad4]

/-- Claim C2 as amended: a strict `YYYY-MM-DDTHH:MM:SSZ` string whose year
is at least 1000 and whose date-plus-seven-days stays within year 9999 is
accepted, and the scheduler returns exactly the date seven calendar days
later in the same strict format; the shift is calendar-exact: the rata-die
ordinal grows by exactly 7 (month/year rollover and leap days included).
(The lenient acceptance of non-strict inputs is the counterexample.) -/
theorem c2_schedule_seven_days (dt : DateTimeM)
    (hv : datetimeValid dt = true) (hy : 1000 ≤ dt.year)
    (hof : (addDays 7 dt).year ≤ 9999) :
    get_scheduled_date (strictFormat dt) =
      some (strictFormat (addDays 7 dt)) ∧
    toOrdinal (addDays 7 dt) = toOrdinal dt + 7 := by
  rcases dt with ⟨y, m, d, h, mi, sec⟩
  have hb := hv
  simp only [datetimeValid, Bool.and_eq_true, decide_eq_true_eq] at hb
  obtain ⟨⟨⟨⟨⟨⟨⟨⟨hy1, hy2⟩, hm1⟩, hm2⟩, hd1⟩, hd2⟩, hh⟩, hmi⟩, hs⟩ := hb
  have hcv : calValid ⟨y, m, d, h, mi, sec⟩ :=
    ⟨hy1, hm1, hm2, hd1, hd2⟩
  have hd31 : d ≤ 31 := le_trans hd2 (daysInMonth_le y m)
  have hround : strptimeFull (strictFormat
      (⟨y, m, d, h, mi, sec⟩ : DateTimeM)).data = some ⟨y, m, d, h, mi, sec⟩ := by
    unfold strptimeFull
    rw [strptimeZ_roundtrip y m d h mi sec hm1 hm2 hd1 hd31 hh hmi hs hy2]
    simp [hv]
  refine ⟨?_, toOrdinal_addDays 7 _ hcv⟩
  unfold get_scheduled_date
  rw [hround]
  simp only [hof, if_true]
  have hy3 : 1000 ≤ (addDays 7 (⟨y, m, d, h, mi, sec⟩ : DateTimeM)).year :=
    le_trans hy (addDays_year_ge 7 _)
  have hfmt : strftimeZ (addDays 7 (⟨y, m, d, h, mi, sec⟩ : DateTimeM)) =
      (strictFormat (addDays 7 (⟨y, m, d, h, mi, sec⟩ : DateTimeM))).data := by
    unfold strftimeZ strictFormat
    rw [natDecimal_eq_pad4 _ hy3 hof]
  rw [hfmt]

/-- Witness for C2's amended claim: the spec's own month-rollover example,
`2024-02-25T00:00:00Z` schedules to `2024-03-03T00:00:00Z`, seven ordinal
days later. -/
theorem c2_schedule_seven_days_witness :
    get_scheduled_date "2024-02-25T00:00:00Z" =
      some "2024-03-03T00:00:00Z" ∧
    toOrdinal (addDays 7 ⟨2024, 2, 25, 0, 0, 0⟩) =
      toOrdinal ⟨2024, 2, 25, 0, 0, 0⟩ + 7 := by
  have h := c2_schedule_seven_days ⟨2024, 2, 25, 0, 0, 0⟩ (by decide)
    (by decide) (by decide)
  have e1 : strictFormat ⟨2024, 2, 25, 0, 0, 0⟩ = "2024-02-25T00:00:00Z" := by
    decide
  have e2 : strictFormat (addDays 7 ⟨2024, 2, 25, 0, 0, 0⟩) =
      "2024-03-03T00:00:00Z" := by decide
  refine ⟨?_, h.2⟩
  rw [← e1, ← e2]
  exact h.1

/-! ## Claims C3, C4, C10: the chunker

Layer 1: facts about the greedy inner loop, `_handle_long_word` and the
trailing-whitespace drop. -/

theorem greedyTake_append (w : Nat) (chunks : List (List Char)) :
    ∀ cl : Nat,
      (greedyTake w cl chunks).1 ++ (greedyTake w cl chunks).2 = chunks := by
  induction chunks with
  | nil => intro cl; simp [greedyTake]
  | cons c rest ih =>
    intro cl
    by_cases h : cl + c.length ≤ w
    · simp [greedyTake, h, ih]
    · simp [greedyTake, h]

theorem greedyTake_sum (w : Nat) (chunks : List (List Char)) :
    ∀ cl : Nat, cl ≤ w →
      cl + ((greedyTake w cl chunks).1.map List.length).sum ≤ w := by
  induction chunks with
  | nil => intro cl h; simpa [greedyTake] using h
  | cons c rest ih =>
    intro cl h
    by_cases hf : cl + c.length ≤ w
    · have := ih (cl + c.length) hf
      simp only [greedyTake, hf, if_true, List.map_cons, List.sum_cons]
      omega
    · simpa [greedyTake, hf] using h

theorem rfindHyphen_lt (chunk : List Char) (stop h : Nat)
    (hh : rfindHyphen chunk stop = some h) : h + 1 ≤ stop := by
  simp only [rfindHyphen] at hh
  rcases hfi : ((chunk.take stop).reverse.findIdx? (fun c => c = '-')) with _ | j
  · rw [hfi] at hh; simp at hh
  · rw [hfi] at hh
    simp at hh
    have hne : (chunk.take stop).reverse ≠ [] := by
      intro he
      rw [he] at hfi
      simp at hfi
    have hlen1 : 1 ≤ (chunk.take stop).length := by
      have := List.length_pos.mpr hne
      simpa using this
    have hlen2 : (chunk.take stop).length ≤ stop := by
      simp [List.length_take]
    omega

/-- `_handle_long_word` splits the chunk at a cut position bounded by the
space left on the line. -/
theorem handleLongWord_spec (w cl : Nat) (c : List Char) (hw : 1 ≤ w)
    (_hcl : cl ≤ w) :
    ∃ e, handleLongWord w cl c = (c.take e, c.drop e) ∧ e ≤ w - cl ∧
      (1 ≤ w - cl → 1 ≤ e) := by
  have hcond : ¬ w < 1 := by omega
  simp only [handleLongWord, hcond, if_false]
  split
  · split
    next hy hrf =>
      split
      · exact ⟨hy + 1, rfl, rfindHyphen_lt c (w - cl) hy hrf, fun _ => by omega⟩
      · exact ⟨w - cl, rfl, le_refl _, fun h => h⟩
    next hrf => exact ⟨w - cl, rfl, le_refl _, fun h => h⟩
  · exact ⟨w - cl, rfl, le_refl _, fun h => h⟩

/-- The two possible outcomes of the trailing-whitespace drop. -/
theorem dropTrailingWS_cases (cur : List (List Char)) :
    dropTrailingWS cur = cur ∨
      (∃ l, cur.getLast? = some l ∧ stripEmpty l = true ∧
        dropTrailingWS cur = cur.dropLast) := by
  unfold dropTrailingWS
  split
  next l hl =>
    split
    next hse => right; exact ⟨l, hl, hse, rfl⟩
    next hse => left; rfl
  next hl => left; rfl

theorem dropTrailingWS_subset (cur : List (List Char)) :
    ∀ x ∈ dropTrailingWS cur, x ∈ cur := by
  rcases dropTrailingWS_cases cur with h | ⟨l, hl, hse, h⟩ <;> rw [h]
  · exact fun x hx => hx
  · exact fun x hx => (List.dropLast_sublist cur).subset hx

theorem stripEmpty_eraseWS (l : List Char) (h : stripEmpty l = true) :
    eraseWS l = [] := by
  rw [eraseWS, List.filter_eq_nil_iff]
  intro a ha
  have := (List.all_eq_true.mp h) a ha
  simpa using this

theorem eraseWS_append (a b : List Char) :
    eraseWS (a ++ b) = eraseWS a ++ eraseWS b := by
  simp [eraseWS, List.filter_append]

theorem eraseWS_flatten_dropTrailingWS (cur : List (List Char)) :
    eraseWS (dropTrailingWS cur).flatten = eraseWS cur.flatten := by
  rcases dropTrailingWS_cases cur with h | ⟨l, hl, hse, h⟩ <;> rw [h]
  have hne : cur ≠ [] := by
    intro he
    rw [he] at hl
    simp at hl
  have hdec : cur.dropLast ++ [l] = cur := by
    have h1 := List.dropLast_append_getLast hne
    have h2 : cur.getLast hne = l := by
      have := List.getLast?_eq_getLast cur hne
      rw [hl] at this
      exact (Option.some.injEq _ _ ▸ this.symm)
    rw [h2] at h1
    exact h1
  conv_rhs => rw [← hdec]
  rw [List.flatten_append, eraseWS_append]
  simp [stripEmpty_eraseWS l hse, List.flatten]

theorem handleLongWord_append (w cl : Nat) (c : List Char) :
    (handleLongWord w cl c).1 ++ (handleLongWord w cl c).2 = c := by
  unfold handleLongWord
  exact List.take_append_drop _ _

/-! Layer 2: the per-line step. -/

theorem wrapStep_content (w : Nat) (ch : List (List Char)) :
    (wrapStep w ch).1.flatten ++ (wrapStep w ch).2.flatten = ch.flatten := by
  unfold wrapStep
  have hga := greedyTake_append w ch 0
  rcases hg : greedyTake w 0 ch with ⟨g1, g2⟩
  rw [hg] at hga
  simp only at hga ⊢
  rcases g2 with _ | ⟨c, rest2⟩
  · subst hga
    simp
  · split
    · next x g1x cx rest2x heq =>
      injection heq with h1 h2
      subst h1
      injection h2 with h3 h4
      subst h3
      subst h4
      split
      · rcases hw : handleLongWord w ((g1.map List.length).sum) c with ⟨hw1, hw2⟩
        have hpr := handleLongWord_append w ((g1.map List.length).sum) c
        rw [hw] at hpr
        simp only at hpr
        rw [← hga]
        simp only [List.flatten_append, List.flatten_cons, List.flatten_nil,
          List.append_nil, ← hpr, List.append_assoc]
      · rw [← hga]
        simp [List.flatten_append]
    · next x g1x heq => exact absurd heq (by simp)

theorem flatten_ne_nil_of_mem {x : List Char} {l : List (List Char)}
    (hx : x ∈ l) (hne : x ≠ []) : l.flatten ≠ [] := by
  intro h
  rw [List.flatten_eq_nil_iff] at h
  exact hne (h x hx)

theorem stripEmpty_flatten_false {x : List Char} {l : List (List Char)}
    (hx : x ∈ l) (hse : stripEmpty x = false) :
    stripEmpty l.flatten = false := by
  rw [stripEmpty, List.all_eq_false] at hse ⊢
  rcases hse with ⟨a, ha, hp⟩
  exact ⟨a, List.mem_flatten.mpr ⟨x, hx, ha⟩, hp⟩

theorem eq_dropLast_concat {l : List Char} {cur : List (List Char)}
    (hl : cur.getLast? = some l) : cur = cur.dropLast ++ [l] := by
  have hne : cur ≠ [] := by intro he; rw [he] at hl; simp at hl
  have h2 : cur.getLast hne = l := by
    have := List.getLast?_eq_getLast cur hne
    rw [hl] at this
    exact (Option.some.injEq _ _ ▸ this.symm)
  conv_lhs => rw [← List.dropLast_concat_getLast hne]
  rw [h2]

theorem dropTrailingWS_eq_dropLast {cur : List (List Char)} {l : List Char}
    (hl : cur.getLast? = some l) (hws : stripEmpty l = true) :
    dropTrailingWS cur = cur.dropLast := by
  unfold dropTrailingWS
  rw [hl]
  simp [hws]

theorem dropTrailingWS_self_or (cur : List (List Char)) :
    dropTrailingWS cur = cur ∨ dropTrailingWS cur = cur.dropLast := by
  rcases dropTrailingWS_cases cur with h | ⟨l, _, _, h⟩
  · exact Or.inl h
  · exact Or.inr h

theorem chunksMeasure_append (a b : List (List Char)) :
    chunksMeasure (a ++ b) = chunksMeasure a + chunksMeasure b := by
  simp only [chunksMeasure, List.map_append, List.sum_append, List.length_append]
  omega

theorem chunksMeasure_cons (c : List Char) (l : List (List Char)) :
    chunksMeasure (c :: l) = c.length + 1 + chunksMeasure l := by
  simp only [chunksMeasure, List.map_cons, List.sum_cons, List.length_cons]
  omega

theorem chunksMeasure_pos {l : List (List Char)} (h : l ≠ []) :
    1 ≤ chunksMeasure l := by
  rcases l with _ | ⟨c, t⟩
  · exact absurd rfl h
  · rw [chunksMeasure_cons]; omega

theorem greedyTake_nil_not_fit {w cl : Nat} {c : List Char}
    {rest g2 : List (List Char)}
    (h : greedyTake w cl (c :: rest) = ([], g2)) : ¬ (cl + c.length ≤ w) := by
  intro hle
  simp only [greedyTake, if_pos hle] at h
  simp at h
/-- The three shapes of one `_wrap_chunks` iteration: everything fits, the
next chunk does not fit but is short, or a long word is split. -/
theorem wrapStep_cases (w : Nat) (ch : List (List Char)) (hw : 1 ≤ w) :
    (∃ g1, greedyTake w 0 ch = (g1, []) ∧ (wrapStep w ch).1 = g1 ∧
      (wrapStep w ch).2 = []) ∨
    (∃ g1 c rest2, greedyTake w 0 ch = (g1, c :: rest2) ∧ ¬ (w < c.length) ∧
      (wrapStep w ch).1 = g1 ∧ (wrapStep w ch).2 = c :: rest2) ∨
    (∃ g1 c rest2 e, greedyTake w 0 ch = (g1, c :: rest2) ∧ w < c.length ∧
      e ≤ w - (g1.map List.length).sum ∧ (g1 = [] → 1 ≤ e) ∧
      (wrapStep w ch).1 = g1 ++ [c.take e] ∧
      (wrapStep w ch).2 = c.drop e :: rest2) := by
  rcases hg : greedyTake w 0 ch with ⟨g1, g2⟩
  have hsum : (g1.map List.length).sum ≤ w := by
    have := greedyTake_sum w ch 0 (Nat.zero_le w)
    rw [hg] at this
    simpa using this
  rcases g2 with _ | ⟨c, rest2⟩
  · left
    refine ⟨g1, rfl, ?_, ?_⟩
    · unfold wrapStep
      rw [hg]
    · unfold wrapStep
      rw [hg]
  · by_cases hlt : w < c.length
    · right; right
      rcases handleLongWord_spec w ((g1.map List.length).sum) c hw hsum with
        ⟨e, hhe, hele, hge1⟩
      refine ⟨g1, c, rest2, e, rfl, hlt, hele, ?_, ?_, ?_⟩
      · intro hg1
        subst hg1
        simp only [List.map_nil, List.sum_nil, Nat.sub_zero] at hge1
        exact hge1 hw
      · unfold wrapStep
        rw [hg]
        simp [hlt, hhe]
      · unfold wrapStep
        rw [hg]
        simp [hlt, hhe]
    · right; left
      refine ⟨g1, c, rest2, rfl, hlt, ?_, ?_⟩
      · unfold wrapStep
        rw [hg]
        simp [hlt]
      · unfold wrapStep
        rw [hg]
        simp [hlt]

/-- Each line the greedy loop builds fits in the width. -/
theorem wrapStep_sum (w : Nat) (ch : List (List Char)) (hw : 1 ≤ w) :
    (((wrapStep w ch).1).map List.length).sum ≤ w := by
  rcases wrapStep_cases w ch hw with
    ⟨g1, hg, hws1, hws2⟩ | ⟨g1, c, rest2, hg, hlt, hws1, hws2⟩ |
    ⟨g1, c, rest2, e, hg, hlt, hele, he1, hws1, hws2⟩ <;>
    (have hsum0 : ((greedyTake w 0 ch).1.map List.length).sum ≤ w := by
      have := greedyTake_sum w ch 0 (Nat.zero_le w)
      omega) <;>
    rw [hg] at hsum0 <;> simp only at hsum0 <;> rw [hws1]
  · exact hsum0
  · exact hsum0
  · have htl : (c.take e).length ≤ e := by
      simp [List.length_take]
    simp only [List.map_append, List.sum_append, List.map_cons, List.sum_cons,
      List.map_nil, List.sum_nil]
    omega

/-- Each `_wrap_chunks` iteration strictly shrinks the chunk list measure. -/
theorem wrapStep_measure (w : Nat) (ch : List (List Char)) (hw : 1 ≤ w)
    (hne : ch ≠ []) : chunksMeasure (wrapStep w ch).2 < chunksMeasure ch := by
  rcases wrapStep_cases w ch hw with
    ⟨g1, hg, hws1, hws2⟩ | ⟨g1, c, rest2, hg, hlt, hws1, hws2⟩ |
    ⟨g1, c, rest2, e, hg, hlt, hele, he1, hws1, hws2⟩ <;>
    (have hga := greedyTake_append w ch 0
     rw [hg] at hga
     simp only at hga) <;> rw [hws2]
  · have hz : chunksMeasure ([] : List (List Char)) = 0 := by
      simp [chunksMeasure]
    rw [hz]
    exact chunksMeasure_pos hne
  · have hg1 : g1 ≠ [] := by
      intro he
      subst he
      simp only [List.nil_append] at hga
      subst hga
      exact absurd (by omega : 0 + c.length ≤ w) (greedyTake_nil_not_fit hg)
    rw [← hga, chunksMeasure_append]
    have := chunksMeasure_pos hg1
    omega
  · rw [← hga, chunksMeasure_append, chunksMeasure_cons, chunksMeasure_cons]
    have hdl : (c.drop e).length = c.length - e := by
      simp
    rw [hdl]
    by_cases hg1 : g1 = []
    · have := he1 hg1
      subst hg1
      have hz : chunksMeasure ([] : List (List Char)) = 0 := by
        simp [chunksMeasure]
      rw [hz]
      omega
    · have := chunksMeasure_pos hg1
      omega

/-- Nonempty chunks stay nonempty across an iteration. -/
theorem wrapStep_snd_ne_nil (w : Nat) (ch : List (List Char)) (hw : 1 ≤ w)
    (hch : ∀ x ∈ ch, x ≠ []) : ∀ x ∈ (wrapStep w ch).2, x ≠ [] := by
  rcases wrapStep_cases w ch hw with
    ⟨g1, hg, hws1, hws2⟩ | ⟨g1, c, rest2, hg, hlt, hws1, hws2⟩ |
    ⟨g1, c, rest2, e, hg, hlt, hele, he1, hws1, hws2⟩ <;>
    (have hga := greedyTake_append w ch 0
     rw [hg] at hga
     simp only at hga) <;> rw [hws2]
  · intro x hx
    simp at hx
  · intro x hx
    exact hch x (by rw [← hga]; exact List.mem_append_right _ hx)
  · intro x hx
    rcases List.mem_cons.mp hx with hx | hx
    · subst hx
      intro he
      have h0 : (c.drop e).length = 0 := by rw [he]; rfl
      simp only [List.length_drop] at h0
      have : e ≤ w := le_trans hele (Nat.sub_le _ _)
      omega
    · exact hch x (by
        rw [← hga]
        exact List.mem_append_right _ (List.mem_cons_of_mem _ hx))

/-- An emitted line is a nonempty string when all chunks are nonempty. -/
theorem wrapStep_line_ne_nil (w : Nat) (ch : List (List Char)) (hw : 1 ≤ w)
    (hch : ∀ x ∈ ch, x ≠ [])
    (hcur : dropTrailingWS (wrapStep w ch).1 ≠ []) :
    (dropTrailingWS (wrapStep w ch).1).flatten ≠ [] := by
  rcases wrapStep_cases w ch hw with
    ⟨g1, hg, hws1, hws2⟩ | ⟨g1, c, rest2, hg, hlt, hws1, hws2⟩ |
    ⟨g1, c, rest2, e, hg, hlt, hele, he1, hws1, hws2⟩ <;>
    (have hga := greedyTake_append w ch 0
     rw [hg] at hga
     simp only at hga) <;> rw [hws1] at hcur ⊢
  · simp only [List.append_nil] at hga
    rcases List.exists_mem_of_ne_nil _ hcur with ⟨x, hx⟩
    have hxg : x ∈ g1 := dropTrailingWS_subset g1 x hx
    exact flatten_ne_nil_of_mem hx (hch x (hga ▸ hxg))
  · rcases List.exists_mem_of_ne_nil _ hcur with ⟨x, hx⟩
    have hxg : x ∈ g1 := dropTrailingWS_subset g1 x hx
    exact flatten_ne_nil_of_mem hx
      (hch x (by rw [← hga]; exact List.mem_append_left _ hxg))
  · by_cases hg1 : g1 = []
    · subst hg1
      have hte : c.take e ≠ [] := by
        intro he
        have h0 : (c.take e).length = 0 := by rw [he]; rfl
        simp only [List.length_take] at h0
        have := he1 rfl
        omega
      rcases List.exists_mem_of_ne_nil _ hcur with ⟨x, hx⟩
      have hxg : x ∈ ([] : List (List Char)) ++ [c.take e] :=
        dropTrailingWS_subset _ x hx
      simp only [List.nil_append, List.mem_singleton] at hxg
      subst hxg
      exact flatten_ne_nil_of_mem hx hte
    · rcases List.exists_mem_of_ne_nil _ hg1 with ⟨y, hy⟩
      have hyne : y ≠ [] := hch y (by
        rw [← hga]; exact List.mem_append_left _ hy)
      rcases dropTrailingWS_self_or (g1 ++ [c.take e]) with h | h
      · rw [h]
        exact flatten_ne_nil_of_mem (List.mem_append_left _ hy) hyne
      · rw [h, List.dropLast_concat]
        exact flatten_ne_nil_of_mem hy hyne

/-- The wordsep chunk stream never has two adjacent all-whitespace chunks;
this is the invariant that makes the whitespace drops sound. -/
def NoAdjWS (a b : List Char) : Prop :=
  ¬ (stripEmpty a = true ∧ stripEmpty b = true)

/-- A nonempty whitespace-dropped prefix of a chain with no adjacent
whitespace chunks contains a non-whitespace chunk. -/
theorem dropTrailingWS_not_all_ws (g1 : List (List Char))
    (hchain : List.Chain' NoAdjWS g1)
    (hcur : dropTrailingWS g1 ≠ []) :
    ∃ x ∈ dropTrailingWS g1, stripEmpty x = false := by
  by_contra hall0
  push_neg at hall0
  simp only [ne_eq, Bool.not_eq_false] at hall0
  have hall : ∀ x ∈ dropTrailingWS g1, stripEmpty x = true := hall0
  rcases dropTrailingWS_cases g1 with hdt | ⟨l, hl, hlws, hdt⟩
  · have hg1ne : g1 ≠ [] := by rw [← hdt]; exact hcur
    have hlast : g1.getLast? = some (g1.getLast hg1ne) :=
      List.getLast?_eq_getLast g1 hg1ne
    have hlmem : g1.getLast hg1ne ∈ dropTrailingWS g1 := by
      rw [hdt]
      exact List.getLast_mem hg1ne
    have hself := dropTrailingWS_eq_dropLast hlast (hall _ hlmem)
    rw [hdt] at hself
    have hlen := congrArg List.length hself
    rw [List.length_dropLast] at hlen
    have := List.length_pos.mpr hg1ne
    omega
  · rw [hdt] at hcur hall
    have hdne : g1.dropLast ≠ [] := hcur
    have halast : g1.dropLast.getLast? =
        some (g1.dropLast.getLast hdne) :=
      List.getLast?_eq_getLast _ hdne
    have haws : stripEmpty (g1.dropLast.getLast hdne) = true :=
      hall _ (List.getLast_mem hdne)
    have hsplit1 : g1.dropLast =
        g1.dropLast.dropLast ++ [g1.dropLast.getLast hdne] :=
      eq_dropLast_concat halast
    have hsplit2 : g1 = g1.dropLast ++ [l] := eq_dropLast_concat hl
    have hinfix : [g1.dropLast.getLast hdne, l] <:+: g1 := by
      conv_rhs => rw [hsplit2, hsplit1]
      exact ⟨g1.dropLast.dropLast, [], by simp⟩
    have hpair := hchain.infix hinfix
    rw [List.chain'_pair] at hpair
    exact hpair ⟨haws, hlws⟩

/-- The whitespace-compatibility invariants survive one iteration: every
non-whitespace remaining chunk still fits the width, and no two adjacent
remaining chunks are both all-whitespace. -/
theorem wrapStep_snd_nonws (w : Nat) (ch : List (List Char)) (hw : 1 ≤ w)
    (hb : ∀ x ∈ ch, stripEmpty x = false → x.length ≤ w)
    (hchain : List.Chain' NoAdjWS ch) :
    (∀ x ∈ (wrapStep w ch).2, stripEmpty x = false → x.length ≤ w) ∧
      List.Chain' NoAdjWS (wrapStep w ch).2 := by
  rcases wrapStep_cases w ch hw with
    ⟨g1, hg, hws1, hws2⟩ | ⟨g1, c, rest2, hg, hlt, hws1, hws2⟩ |
    ⟨g1, c, rest2, e, hg, hlt, hele, he1, hws1, hws2⟩ <;>
    (have hga := greedyTake_append w ch 0
     rw [hg] at hga
     simp only at hga) <;> rw [hws2]
  · exact ⟨by intro x hx; simp at hx, List.chain'_nil⟩
  · have hsuf : c :: rest2 <:+ ch := ⟨g1, hga⟩
    refine ⟨?_, hchain.suffix hsuf⟩
    intro x hx
    exact hb x (hsuf.subset hx)
  · have hsuf : c :: rest2 <:+ ch := ⟨g1, hga⟩
    have hcws : stripEmpty c = true := by
      by_contra hc
      simp only [Bool.not_eq_true] at hc
      have := hb c (hsuf.subset (List.mem_cons_self _ _)) hc
      omega
    have hdws : stripEmpty (c.drop e) = true := by
      rw [stripEmpty, List.all_eq_true] at hcws ⊢
      intro a ha
      exact hcws a ((List.drop_subset _ _) ha)
    have hchain2 : List.Chain' NoAdjWS (c :: rest2) := hchain.suffix hsuf
    constructor
    · intro x hx hxe
      rcases List.mem_cons.mp hx with hx | hx
      · subst hx
        rw [hdws] at hxe
        cases hxe
      · exact hb x (hsuf.subset (List.mem_cons_of_mem _ hx)) hxe
    · rcases List.chain'_cons'.mp hchain2 with ⟨hhd, htl⟩
      refine List.chain'_cons'.mpr ⟨?_, htl⟩
      intro b hbmem
      have hcb := hhd b hbmem
      unfold NoAdjWS at hcb ⊢
      intro hand
      exact hcb ⟨hcws, hand.2⟩

/-- An emitted line contains a non-whitespace chunk, provided no oversize
non-whitespace chunk exists and whitespace chunks never touch. -/
theorem wrapStep_line_nonws (w : Nat) (ch : List (List Char)) (hw : 1 ≤ w)
    (hb : ∀ x ∈ ch, stripEmpty x = false → x.length ≤ w)
    (hchain : List.Chain' NoAdjWS ch)
    (hcur : dropTrailingWS (wrapStep w ch).1 ≠ []) :
    stripEmpty (dropTrailingWS (wrapStep w ch).1).flatten = false := by
  rcases wrapStep_cases w ch hw with
    ⟨g1, hg, hws1, hws2⟩ | ⟨g1, c, rest2, hg, hlt, hws1, hws2⟩ |
    ⟨g1, c, rest2, e, hg, hlt, hele, he1, hws1, hws2⟩ <;>
    (have hga := greedyTake_append w ch 0
     rw [hg] at hga
     simp only at hga) <;> rw [hws1] at hcur ⊢
  · simp only [List.append_nil] at hga
    have hchain1 : List.Chain' NoAdjWS g1 := by rw [hga]; exact hchain
    rcases dropTrailingWS_not_all_ws g1 hchain1 hcur with ⟨x, hx, hxf⟩
    exact stripEmpty_flatten_false hx hxf
  · have hchain1 : List.Chain' NoAdjWS g1 :=
      hchain.prefix ⟨c :: rest2, hga⟩
    rcases dropTrailingWS_not_all_ws g1 hchain1 hcur with ⟨x, hx, hxf⟩
    exact stripEmpty_flatten_false hx hxf
  · have hsuf : c :: rest2 <:+ ch := ⟨g1, hga⟩
    have hcws : stripEmpty c = true := by
      by_contra hc
      simp only [Bool.not_eq_true] at hc
      have := hb c (hsuf.subset (List.mem_cons_self _ _)) hc
      omega
    have htws : stripEmpty (c.take e) = true := by
      rw [stripEmpty, List.all_eq_true] at hcws ⊢
      intro a ha
      exact hcws a ((List.take_subset _ _) ha)
    have hlastq : (g1 ++ [c.take e]).getLast? = some (c.take e) := by
      simp
    have hdt : dropTrailingWS (g1 ++ [c.take e]) = g1 := by
      rw [dropTrailingWS_eq_dropLast hlastq htws, List.dropLast_concat]
    rw [hdt] at hcur ⊢
    have hg1ne : g1 ≠ [] := hcur
    by_contra hall0
    have hall : ∀ x ∈ g1, stripEmpty x = true := by
      intro x hx
      by_contra hxf
      simp only [Bool.not_eq_true] at hxf
      exact hall0 (stripEmpty_flatten_false hx hxf)
    have hlast : g1.getLast? = some (g1.getLast hg1ne) :=
      List.getLast?_eq_getLast g1 hg1ne
    have hsplit : g1 = g1.dropLast ++ [g1.getLast hg1ne] :=
      eq_dropLast_concat hlast
    have hinfix : [g1.getLast hg1ne, c] <:+: ch := by
      rw [← hga]
      conv_rhs => rw [hsplit]
      exact ⟨g1.dropLast, rest2, by simp⟩
    have hpair := hchain.infix hinfix
    rw [List.chain'_pair] at hpair
    exact hpair ⟨hall _ (List.getLast_mem hg1ne), hcws⟩

/-! Layer 3: the `_wrap_chunks` outer loop. -/

theorem wrapChunksGo_cons (w fuel : Nat) (c0 : List Char)
    (rest0 : List (List Char)) (hasLines : Bool) {line rest : List (List Char)}
    (hstep : wrapStep w
      (if hasLines && stripEmpty c0 then rest0 else c0 :: rest0) =
      (line, rest)) :
    wrapChunksGo w (fuel + 1) (c0 :: rest0) hasLines =
      if (dropTrailingWS line).isEmpty then wrapChunksGo w fuel rest hasLines
      else (dropTrailingWS line).flatten ::
        wrapChunksGo w fuel rest true := by
  simp only [wrapChunksGo]
  rw [hstep]

theorem wrapStep_measure_le (w : Nat) (ch : List (List Char)) (hw : 1 ≤ w) :
    chunksMeasure (wrapStep w ch).2 ≤ chunksMeasure ch := by
  rcases ch with _ | ⟨c, t⟩
  · rw [show (wrapStep w []).2 = [] from rfl]
  · exact le_of_lt (wrapStep_measure w _ hw (by simp))

theorem dropTrailingWS_sum_le (cur : List (List Char)) :
    ((dropTrailingWS cur).map List.length).sum ≤
      (cur.map List.length).sum := by
  rcases dropTrailingWS_cases cur with h | ⟨l, hl, hws, h⟩
  · rw [h]
  · rw [h]
    conv_rhs => rw [eq_dropLast_concat hl]
    simp only [List.map_append, List.sum_append, List.map_cons,
      List.sum_cons, List.map_nil, List.sum_nil]
    omega

theorem eq_nil_of_chunksMeasure_le_zero {chunks : List (List Char)}
    (h : chunksMeasure chunks ≤ 0) : chunks = [] := by
  rcases chunks with _ | ⟨c, t⟩
  · rfl
  · rw [chunksMeasure_cons] at h
    omega

theorem chunks1_subset (c0 : List Char) (rest0 : List (List Char))
    (hasLines : Bool) :
    ∀ x ∈ (if hasLines && stripEmpty c0 then rest0 else c0 :: rest0),
      x ∈ c0 :: rest0 := by
  intro x hx
  by_cases h : (hasLines && stripEmpty c0) = true
  · rw [if_pos h] at hx
    exact List.mem_cons_of_mem _ hx
  · rw [if_neg h] at hx
    exact hx

theorem chunks1_eraseWS (c0 : List Char) (rest0 : List (List Char))
    (hasLines : Bool) :
    eraseWS (if hasLines && stripEmpty c0 then rest0
      else c0 :: rest0).flatten = eraseWS (c0 :: rest0).flatten := by
  by_cases h : (hasLines && stripEmpty c0) = true
  · rw [if_pos h]
    have hse : stripEmpty c0 = true := ((Bool.and_eq_true _ _).mp h).2
    rw [List.flatten_cons, eraseWS_append, stripEmpty_eraseWS c0 hse,
      List.nil_append]
  · rw [if_neg h]

theorem chunks1_chain (c0 : List Char) (rest0 : List (List Char))
    (hasLines : Bool) (h : List.Chain' NoAdjWS (c0 :: rest0)) :
    List.Chain' NoAdjWS
      (if hasLines && stripEmpty c0 then rest0 else c0 :: rest0) := by
  by_cases hb : (hasLines && stripEmpty c0) = true
  · rw [if_pos hb]
    exact h.suffix (List.suffix_cons _ _)
  · rw [if_neg hb]
    exact h

theorem chunks1_measure_le (c0 : List Char) (rest0 : List (List Char))
    (hasLines : Bool) :
    chunksMeasure (if hasLines && stripEmpty c0 then rest0
      else c0 :: rest0) ≤ chunksMeasure (c0 :: rest0) := by
  by_cases hb : (hasLines && stripEmpty c0) = true
  · rw [if_pos hb, chunksMeasure_cons]
    omega
  · rw [if_neg hb]

/-- Every line `_wrap_chunks` emits fits in the width. -/
theorem wrapChunksGo_length (w : Nat) (hw : 1 ≤ w) :
    ∀ fuel chunks hasLines l, l ∈ wrapChunksGo w fuel chunks hasLines →
      l.length ≤ w := by
  intro fuel
  induction fuel with
  | zero =>
    intro chunks hasLines l hl
    simp [wrapChunksGo] at hl
  | succ fuel ih =>
    intro chunks hasLines l hl
    rcases chunks with _ | ⟨c0, rest0⟩
    · simp [wrapChunksGo] at hl
    · rcases hstep : wrapStep w
        (if hasLines && stripEmpty c0 then rest0 else c0 :: rest0) with
        ⟨line, rest⟩
      rw [wrapChunksGo_cons w fuel c0 rest0 hasLines hstep] at hl
      by_cases hemp : (dropTrailingWS line).isEmpty = true
      · rw [if_pos hemp] at hl
        exact ih rest hasLines l hl
      · rw [if_neg hemp] at hl
        rcases List.mem_cons.mp hl with hl | hl
        · subst hl
          have hsum := wrapStep_sum w
            (if hasLines && stripEmpty c0 then rest0 else c0 :: rest0) hw
          rw [hstep] at hsum
          simp only at hsum
          rw [List.length_flatten]
          exact le_trans (dropTrailingWS_sum_le line) hsum
        · exact ih rest true l hl

/-- `_wrap_chunks` loses no non-whitespace character. -/
theorem wrapChunksGo_eraseWS (w : Nat) (hw : 1 ≤ w) :
    ∀ fuel chunks hasLines, chunksMeasure chunks ≤ fuel →
      eraseWS (wrapChunksGo w fuel chunks hasLines).flatten =
        eraseWS chunks.flatten := by
  intro fuel
  induction fuel with
  | zero =>
    intro chunks hasLines hm
    rw [eq_nil_of_chunksMeasure_le_zero hm]
    rfl
  | succ fuel ih =>
    intro chunks hasLines hm
    rcases chunks with _ | ⟨c0, rest0⟩
    · rfl
    · rcases hstep : wrapStep w
        (if hasLines && stripEmpty c0 then rest0 else c0 :: rest0) with
        ⟨line, rest⟩
      rw [wrapChunksGo_cons w fuel c0 rest0 hasLines hstep]
      have hcontent := wrapStep_content w
        (if hasLines && stripEmpty c0 then rest0 else c0 :: rest0)
      rw [hstep] at hcontent
      simp only at hcontent
      have hm2 : chunksMeasure rest ≤ fuel := by
        have hle := chunks1_measure_le c0 rest0 hasLines
        rw [chunksMeasure_cons] at hm
        by_cases hb : (hasLines && stripEmpty c0) = true
        · have := wrapStep_measure_le w
            (if hasLines && stripEmpty c0 then rest0 else c0 :: rest0) hw
          rw [hstep] at this
          simp only at this
          rw [if_pos hb] at this
          omega
        · have := wrapStep_measure w
            (if hasLines && stripEmpty c0 then rest0 else c0 :: rest0) hw
            (by rw [if_neg hb]; simp)
          rw [hstep] at this
          simp only at this
          rw [chunksMeasure_cons] at hle
          omega
      have hkey : eraseWS line.flatten ++ eraseWS rest.flatten =
          eraseWS (c0 :: rest0).flatten := by
        rw [← eraseWS_append, hcontent, chunks1_eraseWS]
      by_cases hemp : (dropTrailingWS line).isEmpty = true
      · rw [if_pos hemp]
        have hnil : dropTrailingWS line = [] := by
          rwa [List.isEmpty_iff] at hemp
        have hline : eraseWS line.flatten = [] := by
          rw [← eraseWS_flatten_dropTrailingWS, hnil]
          rfl
        rw [ih rest hasLines hm2, ← hkey, hline, List.nil_append]
      · rw [if_neg hemp]
        rw [List.flatten_cons, eraseWS_append, ih rest true hm2,
          eraseWS_flatten_dropTrailingWS, hkey]

/-- When all chunks are nonempty strings, every emitted line is a nonempty
string. -/
theorem wrapChunksGo_ne_nil (w : Nat) (hw : 1 ≤ w) :
    ∀ fuel chunks hasLines, (∀ x ∈ chunks, x ≠ []) →
      ∀ l ∈ wrapChunksGo w fuel chunks hasLines, l ≠ [] := by
  intro fuel
  induction fuel with
  | zero =>
    intro chunks hasLines _ l hl
    simp [wrapChunksGo] at hl
  | succ fuel ih =>
    intro chunks hasLines hch l hl
    rcases chunks with _ | ⟨c0, rest0⟩
    · simp [wrapChunksGo] at hl
    · rcases hstep : wrapStep w
        (if hasLines && stripEmpty c0 then rest0 else c0 :: rest0) with
        ⟨line, rest⟩
      rw [wrapChunksGo_cons w fuel c0 rest0 hasLines hstep] at hl
      have hch1 : ∀ x ∈ (if hasLines && stripEmpty c0 then rest0
          else c0 :: rest0), x ≠ [] :=
        fun x hx => hch x (chunks1_subset c0 rest0 hasLines x hx)
      have hrest : ∀ x ∈ rest, x ≠ [] := by
        have := wrapStep_snd_ne_nil w
          (if hasLines && stripEmpty c0 then rest0 else c0 :: rest0) hw hch1
        rw [hstep] at this
        simpa using this
      by_cases hemp : (dropTrailingWS line).isEmpty = true
      · rw [if_pos hemp] at hl
        exact ih rest hasLines hrest l hl
      · rw [if_neg hemp] at hl
        rcases List.mem_cons.mp hl with hl | hl
        · subst hl
          have hne : dropTrailingWS line ≠ [] := by
            intro he
            rw [he] at hemp
            exact hemp rfl
          have := wrapStep_line_ne_nil w
            (if hasLines && stripEmpty c0 then rest0 else c0 :: rest0)
            hw hch1
          rw [hstep] at this
          simp only at this
          exact this hne
        · exact ih rest true hrest l hl

/-- When every non-whitespace chunk fits in the width and whitespace chunks
never touch, every emitted line has a non-whitespace character. -/
theorem wrapChunksGo_nonws (w : Nat) (hw : 1 ≤ w) :
    ∀ fuel chunks hasLines,
      (∀ x ∈ chunks, stripEmpty x = false → x.length ≤ w) →
      List.Chain' NoAdjWS chunks →
      ∀ l ∈ wrapChunksGo w fuel chunks hasLines,
        stripEmpty l = false := by
  intro fuel
  induction fuel with
  | zero =>
    intro chunks hasLines _ _ l hl
    simp [wrapChunksGo] at hl
  | succ fuel ih =>
    intro chunks hasLines hb hchain l hl
    rcases chunks with _ | ⟨c0, rest0⟩
    · simp [wrapChunksGo] at hl
    · rcases hstep : wrapStep w
        (if hasLines && stripEmpty c0 then rest0 else c0 :: rest0) with
        ⟨line, rest⟩
      rw [wrapChunksGo_cons w fuel c0 rest0 hasLines hstep] at hl
      have hb1 : ∀ x ∈ (if hasLines && stripEmpty c0 then rest0
          else c0 :: rest0), stripEmpty x = false → x.length ≤ w :=
        fun x hx => hb x (chunks1_subset c0 rest0 hasLines x hx)
      have hchain1 : List.Chain' NoAdjWS
          (if hasLines && stripEmpty c0 then rest0 else c0 :: rest0) :=
        chunks1_chain c0 rest0 hasLines hchain
      have hinv := wrapStep_snd_nonws w
        (if hasLines && stripEmpty c0 then rest0 else c0 :: rest0)
        hw hb1 hchain1
      rw [hstep] at hinv
      simp only at hinv
      by_cases hemp : (dropTrailingWS line).isEmpty = true
      · rw [if_pos hemp] at hl
        exact ih rest hasLines hinv.1 hinv.2 l hl
      · rw [if_neg hemp] at hl
        rcases List.mem_cons.mp hl with hl | hl
        · subst hl
          have hne : dropTrailingWS line ≠ [] := by
            intro he
            rw [he] at hemp
            exact hemp rfl
          have := wrapStep_line_nonws w
            (if hasLines && stripEmpty c0 then rest0 else c0 :: rest0)
            hw hb1 hchain1
          rw [hstep] at this
          simp only at this
          exact this hne
        · exact ih rest true hinv.1 hinv.2 l hl

/-! Layer 4: the wordsep chunk stream.  Chunks concatenate back to the
input, are nonempty, homogeneous (all-whitespace or whitespace-free),
contiguous in the input, and no two adjacent chunks are both whitespace. -/

theorem emOkCond_dash {prevRev : List Char} {c : Char} {rest : List Char}
    (h : emOkCond prevRev c rest = true) : c = '-' := by
  simp only [emOkCond, Bool.and_eq_true, decide_eq_true_eq] at h
  exact h.1.1

theorem takeWhile_append_drop (p : Char → Bool) (l : List Char) :
    l.takeWhile p ++ l.drop (l.takeWhile p).length = l := by
  have h2 := List.drop_left (l.takeWhile p) (l.dropWhile p)
  rw [List.takeWhile_append_dropWhile] at h2
  rw [h2, List.takeWhile_append_dropWhile]

theorem dropWhile_head_false (p : Char → Bool) :
    ∀ (l : List Char) d t, l.dropWhile p = d :: t → p d = false := by
  intro l
  induction l with
  | nil => intro d t h; simp [List.dropWhile] at h
  | cons c rest ih =>
    intro d t h
    rw [List.dropWhile_cons] at h
    by_cases hc : p c = true
    · rw [if_pos hc] at h
      exact ih d t h
    · rw [if_neg hc] at h
      injection h with h1 h2
      subst h1
      simp only [Bool.not_eq_true] at hc
      exact hc

theorem scanWord_append :
    ∀ (rest accRev prevRev : List Char),
      accRev.reverse ++ rest =
        (scanWord accRev prevRev rest).1 ++ (scanWord accRev prevRev rest).2 := by
  intro rest
  induction rest with
  | nil => intro accRev prevRev; simp [scanWord]
  | cons c rest ih =>
    intro accRev prevRev
    by_cases h : wordStop prevRev (c :: rest) = true
    · simp [scanWord, h]
    · simp only [scanWord, h, Bool.false_eq_true, if_false]
      rw [← ih (c :: accRev) (c :: prevRev)]
      simp

theorem scanWord_ne_nil :
    ∀ (rest accRev prevRev : List Char), accRev ≠ [] →
      (scanWord accRev prevRev rest).1 ≠ [] := by
  intro rest
  induction rest with
  | nil =>
    intro accRev prevRev hne
    simp [scanWord, hne]
  | cons c rest ih =>
    intro accRev prevRev hne
    by_cases h : wordStop prevRev (c :: rest) = true
    · simp [scanWord, h, hne]
    · simp only [scanWord, h, Bool.false_eq_true, if_false]
      exact ih (c :: accRev) (c :: prevRev) (by simp)

theorem scanWord_all_nonws :
    ∀ (rest accRev prevRev : List Char),
      (∀ a ∈ accRev, isPyWS a = false) →
      ∀ a ∈ (scanWord accRev prevRev rest).1, isPyWS a = false := by
  intro rest
  induction rest with
  | nil =>
    intro accRev prevRev hall a ha
    simp only [scanWord, List.mem_reverse] at ha
    exact hall a ha
  | cons c rest ih =>
    intro accRev prevRev hall a ha
    by_cases h : wordStop prevRev (c :: rest) = true
    · simp only [scanWord, h, if_true, List.mem_reverse] at ha
      exact hall a ha
    · have hc : isPyWS c = false := by
        by_contra hcc
        simp only [Bool.not_eq_false] at hcc
        simp [wordStop.eq_def, hcc] at h
      simp only [scanWord, h, Bool.false_eq_true, if_false] at ha
      refine ih (c :: accRev) (c :: prevRev) ?_ a ha
      intro b hb
      rcases List.mem_cons.mp hb with hb | hb
      · subst hb; exact hc
      · exact hall b hb

theorem wordsepGo_nil (fuel : Nat) (prevRev : List Char) :
    wordsepGo fuel prevRev [] = [] := by
  rcases fuel with _ | fuel <;> rfl

theorem wordsepGo_flatten :
    ∀ (fuel : Nat) (prevRev s : List Char), s.length ≤ fuel →
      (wordsepGo fuel prevRev s).flatten = s := by
  intro fuel
  induction fuel with
  | zero =>
    intro prevRev s hlen
    have : s = [] := by
      rcases s with _ | ⟨c, t⟩
      · rfl
      · simp at hlen
    subst this
    rfl
  | succ fuel ih =>
    intro prevRev s hlen
    rcases s with _ | ⟨c, rest⟩
    · rfl
    · simp only [List.length_cons] at hlen
      by_cases hws : isPyWS c = true
      · simp only [wordsepGo, hws, if_true, List.flatten_cons]
        rw [ih _ _ (le_trans
          ((List.dropWhile_suffix isPyWS).sublist.length_le) (by omega))]
        simp [List.takeWhile_append_dropWhile]
      · by_cases hem : emOkCond prevRev c rest = true
        · simp only [wordsepGo, hws, Bool.false_eq_true, if_false, hem,
            if_true, List.flatten_cons]
          have hc : c = '-' := emOkCond_dash hem
          have hrun : ((c :: rest).takeWhile (fun d => d = '-')) =
              c :: (rest.takeWhile (fun d => d = '-')) := by
            rw [List.takeWhile_cons, if_pos (by simp [hc])]
          have hlen2 : ((c :: rest).drop
              ((c :: rest).takeWhile (fun d => d = '-')).length).length ≤ fuel := by
            rw [List.length_drop, hrun]
            simp only [List.length_cons]
            omega
          rw [ih _ _ hlen2]
          exact takeWhile_append_drop _ _
        · simp only [wordsepGo, hws, Bool.false_eq_true, if_false, hem,
            List.flatten_cons]
          have happ := scanWord_append rest [c] (c :: prevRev)
          simp only [List.reverse_cons, List.reverse_nil, List.nil_append,
            List.singleton_append] at happ
          have hne := scanWord_ne_nil rest [c] (c :: prevRev) (by simp)
          have hlen2 : (scanWord [c] (c :: prevRev) rest).2.length ≤ fuel := by
            have := congrArg List.length happ
            simp only [List.length_cons, List.length_append] at this
            have hpos : 1 ≤ (scanWord [c] (c :: prevRev) rest).1.length := by
              rcases hsc : (scanWord [c] (c :: prevRev) rest).1 with _ | ⟨d, t⟩
              · exact absurd hsc hne
              · simp
            omega
          rw [ih _ _ hlen2]
          exact happ.symm

theorem wordsepGo_ne_nil :
    ∀ (fuel : Nat) (prevRev s : List Char) (chunk : List Char),
      chunk ∈ wordsepGo fuel prevRev s → chunk ≠ [] := by
  intro fuel
  induction fuel with
  | zero =>
    intro prevRev s chunk hc
    simp [wordsepGo] at hc
  | succ fuel ih =>
    intro prevRev s chunk hc
    rcases s with _ | ⟨c, rest⟩
    · simp [wordsepGo] at hc
    · by_cases hws : isPyWS c = true
      · simp only [wordsepGo, hws, if_true, List.mem_cons] at hc
        rcases hc with hc | hc
        · subst hc; simp
        · exact ih _ _ _ hc
      · by_cases hem : emOkCond prevRev c rest = true
        · simp only [wordsepGo, hws, Bool.false_eq_true, if_false, hem,
            if_true, List.mem_cons] at hc
          rcases hc with hc | hc
          · subst hc
            have hc2 : c = '-' := emOkCond_dash hem
            rw [List.takeWhile_cons, if_pos (by simp [hc2])]
            simp
          · exact ih _ _ _ hc
        · simp only [wordsepGo, hws, Bool.false_eq_true, if_false, hem,
            List.mem_cons] at hc
          rcases hc with hc | hc
          · subst hc
            exact scanWord_ne_nil rest [c] (c :: prevRev) (by simp)
          · exact ih _ _ _ hc

theorem wordsepGo_homog :
    ∀ (fuel : Nat) (prevRev s : List Char) (chunk : List Char),
      chunk ∈ wordsepGo fuel prevRev s →
      stripEmpty chunk = true ∨ ∀ a ∈ chunk, isPyWS a = false := by
  intro fuel
  induction fuel with
  | zero =>
    intro prevRev s chunk hc
    simp [wordsepGo] at hc
  | succ fuel ih =>
    intro prevRev s chunk hc
    rcases s with _ | ⟨c, rest⟩
    · simp [wordsepGo] at hc
    · by_cases hws : isPyWS c = true
      · simp only [wordsepGo, hws, if_true, List.mem_cons] at hc
        rcases hc with hc | hc
        · subst hc
          left
          rw [stripEmpty, List.all_eq_true]
          intro a ha
          rcases List.mem_cons.mp ha with ha | ha
          · subst ha; exact hws
          · exact List.mem_takeWhile_imp ha
        · exact ih _ _ _ hc
      · by_cases hem : emOkCond prevRev c rest = true
        · simp only [wordsepGo, hws, Bool.false_eq_true, if_false, hem,
            if_true, List.mem_cons] at hc
          rcases hc with hc | hc
          · subst hc
            right
            intro a ha
            have := List.mem_takeWhile_imp ha
            have ha2 : a = '-' := of_decide_eq_true this
            subst ha2
            rfl
          · exact ih _ _ _ hc
        · simp only [wordsepGo, hws, Bool.false_eq_true, if_false, hem,
            List.mem_cons] at hc
          rcases hc with hc | hc
          · subst hc
            right
            exact scanWord_all_nonws rest [c] (c :: prevRev)
              (by intro a ha; simp only [List.mem_singleton] at ha; subst ha
                  simpa using hws)
          · exact ih _ _ _ hc

theorem wordsepGo_isInfix :
    ∀ (fuel : Nat) (prevRev s : List Char) (chunk : List Char),
      chunk ∈ wordsepGo fuel prevRev s → chunk <:+: s := by
  intro fuel
  induction fuel with
  | zero =>
    intro prevRev s chunk hc
    simp [wordsepGo] at hc
  | succ fuel ih =>
    intro prevRev s chunk hc
    rcases s with _ | ⟨c, rest⟩
    · simp [wordsepGo] at hc
    · by_cases hws : isPyWS c = true
      · simp only [wordsepGo, hws, if_true, List.mem_cons] at hc
        rcases hc with hc | hc
        · subst hc
          refine List.IsPrefix.isInfix ⟨rest.dropWhile isPyWS, ?_⟩
          simp [List.takeWhile_append_dropWhile]
        · exact ((ih _ _ _ hc).trans
            (List.dropWhile_suffix isPyWS).isInfix).trans
            (List.suffix_cons c rest).isInfix
      · by_cases hem : emOkCond prevRev c rest = true
        · simp only [wordsepGo, hws, Bool.false_eq_true, if_false, hem,
            if_true, List.mem_cons] at hc
          rcases hc with hc | hc
          · subst hc
            exact List.IsPrefix.isInfix (List.takeWhile_prefix _)
          · refine (ih _ _ _ hc).trans ?_
            exact ⟨(c :: rest).takeWhile (fun d => d = '-'), [],
              by rw [List.append_nil]; exact takeWhile_append_drop _ _⟩
        · simp only [wordsepGo, hws, Bool.false_eq_true, if_false, hem,
            List.mem_cons] at hc
          have happ := scanWord_append rest [c] (c :: prevRev)
          simp only [List.reverse_cons, List.reverse_nil, List.nil_append,
            List.singleton_append] at happ
          rcases hc with hc | hc
          · subst hc
            exact List.IsPrefix.isInfix
              ⟨(scanWord [c] (c :: prevRev) rest).2, happ.symm⟩
          · refine (ih _ _ _ hc).trans ?_
            exact ⟨(scanWord [c] (c :: prevRev) rest).1, [],
              by rw [List.append_nil]; exact happ.symm⟩

theorem wordsepGo_head_nonws :
    ∀ (fuel : Nat) (prevRev : List Char) (c : Char) (rest : List Char)
      (h0 : List Char), isPyWS c = false →
      (wordsepGo fuel prevRev (c :: rest)).head? = some h0 →
      stripEmpty h0 = false := by
  intro fuel prevRev c rest h0 hc hh
  rcases fuel with _ | fuel
  · simp [wordsepGo] at hh
  · have hfirst : ∀ (chunk w2 : List Char), chunk ≠ [] →
        chunk ++ w2 = c :: rest → stripEmpty chunk = false := by
      intro chunk w2 hne happ
      rcases chunk with _ | ⟨c1, t⟩
      · exact absurd rfl hne
      · rw [List.cons_append] at happ
        injection happ with h1 _
        subst h1
        simp [stripEmpty, hc]
    by_cases hem : emOkCond prevRev c rest = true
    · simp only [wordsepGo, hc, Bool.false_eq_true, if_false, hem, if_true,
        List.head?_cons, Option.some.injEq] at hh
      subst hh
      refine hfirst _ ((c :: rest).drop
        ((c :: rest).takeWhile (fun d => d = '-')).length) ?_
        (takeWhile_append_drop _ _)
      have hc2 : c = '-' := emOkCond_dash hem
      rw [List.takeWhile_cons, if_pos (by simp [hc2])]
      simp
    · simp only [wordsepGo, hc, Bool.false_eq_true, if_false, hem,
        List.head?_cons, Option.some.injEq] at hh
      subst hh
      have happ := scanWord_append rest [c] (c :: prevRev)
      simp only [List.reverse_cons, List.reverse_nil, List.nil_append,
        List.singleton_append] at happ
      exact hfirst _ _ (scanWord_ne_nil rest [c] (c :: prevRev) (by simp))
        happ.symm

theorem wordsepGo_chain :
    ∀ (fuel : Nat) (prevRev s : List Char),
      List.Chain' NoAdjWS (wordsepGo fuel prevRev s) := by
  intro fuel
  induction fuel with
  | zero => intro prevRev s; simp [wordsepGo]
  | succ fuel ih =>
    intro prevRev s
    rcases s with _ | ⟨c, rest⟩
    · simp [wordsepGo]
    · by_cases hws : isPyWS c = true
      · simp only [wordsepGo, hws, if_true]
        refine List.chain'_cons'.mpr ⟨?_, ih _ _⟩
        intro y hy
        rcases hdw : rest.dropWhile isPyWS with _ | ⟨d, t⟩
        · rw [hdw, wordsepGo_nil] at hy
          simp at hy
        · rw [hdw] at hy
          have hd : isPyWS d = false := dropWhile_head_false isPyWS rest d t hdw
          have := wordsepGo_head_nonws fuel _ d t y hd hy
          intro hand
          rw [this] at hand
          exact absurd hand.2 (by simp)
      · have hmem0 : ∃ chunk tail2,
            wordsepGo (fuel + 1) prevRev (c :: rest) = chunk :: tail2 ∧
            stripEmpty chunk = false ∧
            (∃ prevRev2 s2, tail2 = wordsepGo fuel prevRev2 s2) := by
          by_cases hem : emOkCond prevRev c rest = true
          · refine ⟨(c :: rest).takeWhile (fun d => d = '-'),
              wordsepGo fuel
                (((c :: rest).takeWhile (fun d => d = '-')).reverse ++ prevRev)
                ((c :: rest).drop
                  ((c :: rest).takeWhile (fun d => d = '-')).length),
              by simp only [wordsepGo, hws, Bool.false_eq_true,
                if_false, hem, if_true], ?_, _, _, rfl⟩
            have hc2 : c = '-' := emOkCond_dash hem
            rw [List.takeWhile_cons, if_pos (by simp [hc2])]
            simp only [Bool.not_eq_true] at hws
            simp [stripEmpty, hws]
          · refine ⟨(scanWord [c] (c :: prevRev) rest).1,
              wordsepGo fuel
                ((scanWord [c] (c :: prevRev) rest).1.reverse ++ prevRev)
                (scanWord [c] (c :: prevRev) rest).2,
              by simp only [wordsepGo, hws, Bool.false_eq_true,
                if_false, hem], ?_, _, _, rfl⟩
            have happ := scanWord_append rest [c] (c :: prevRev)
            simp only [List.reverse_cons, List.reverse_nil, List.nil_append,
              List.singleton_append] at happ
            have hne := scanWord_ne_nil rest [c] (c :: prevRev) (by simp)
            rcases hsc : (scanWord [c] (c :: prevRev) rest).1 with _ | ⟨c1, t⟩
            · exact absurd hsc hne
            · rw [hsc] at happ
              rw [List.cons_append] at happ
              injection happ.symm with h1 _
              subst h1
              simp only [Bool.not_eq_true] at hws
              simp [stripEmpty, hws]
        rcases hmem0 with ⟨chunk, tail2, heq, hfalse, prevRev2, s2, htail⟩
        rw [heq]
        refine List.chain'_cons'.mpr ⟨?_, ?_⟩
        · intro y _
          intro hand
          rw [hfalse] at hand
          exact absurd hand.1 (by simp)
        · rw [htail]
          exact ih _ _

/-! Layer 5: longest-word bounds. -/

theorem maxRunGo_best_le :
    ∀ (s : List Char) (cur best : Nat), best ≤ maxRunGo s cur best := by
  intro s
  induction s with
  | nil => intro cur best; simp [maxRunGo]
  | cons c rest ih =>
    intro cur best
    by_cases hc : isPyWS c = true
    · simp only [maxRunGo, hc, if_true]
      exact le_trans (le_max_right cur best) (ih 0 (max cur best))
    · simp only [maxRunGo, hc, Bool.false_eq_true, if_false]
      exact ih (cur + 1) best

theorem maxRunGo_cur_le :
    ∀ (s : List Char) (cur best : Nat), cur ≤ maxRunGo s cur best := by
  intro s
  induction s with
  | nil => intro cur best; simp [maxRunGo]
  | cons c rest ih =>
    intro cur best
    by_cases hc : isPyWS c = true
    · simp only [maxRunGo, hc, if_true]
      exact le_trans (le_max_left cur best) (maxRunGo_best_le rest 0 (max cur best))
    · simp only [maxRunGo, hc, Bool.false_eq_true, if_false]
      exact le_trans (Nat.le_succ cur) (ih (cur + 1) best)

theorem maxRunGo_mono :
    ∀ (s : List Char) (cur1 best1 cur2 best2 : Nat), cur1 ≤ cur2 →
      best1 ≤ best2 → maxRunGo s cur1 best1 ≤ maxRunGo s cur2 best2 := by
  intro s
  induction s with
  | nil =>
    intro cur1 best1 cur2 best2 h1 h2
    simp only [maxRunGo]
    omega
  | cons c rest ih =>
    intro cur1 best1 cur2 best2 h1 h2
    by_cases hc : isPyWS c = true
    · simp only [maxRunGo, hc, if_true]
      exact ih 0 _ 0 _ (le_refl 0) (by omega)
    · simp only [maxRunGo, hc, Bool.false_eq_true, if_false]
      exact ih (cur1 + 1) best1 (cur2 + 1) best2 (by omega) h2

theorem maxRunGo_prefix_nonws :
    ∀ (u s : List Char) (cur best : Nat), u <+: s →
      (∀ a ∈ u, isPyWS a = false) → cur + u.length ≤ maxRunGo s cur best := by
  intro u
  induction u with
  | nil =>
    intro s cur best _ _
    simpa using maxRunGo_cur_le s cur best
  | cons d u2 ih =>
    intro s cur best hpre hall
    rcases s with _ | ⟨b, s2⟩
    · simp at hpre
    · rcases List.cons_prefix_cons.mp hpre with ⟨hdb, hpre2⟩
      subst hdb
      have hd : isPyWS d = false := hall d (List.mem_cons_self _ _)
      simp only [maxRunGo, hd, Bool.false_eq_true, if_false, List.length_cons]
      have := ih s2 (cur + 1) best hpre2
        (fun a ha => hall a (List.mem_cons_of_mem _ ha))
      omega

/-- A whitespace-free contiguous piece of `s` is no longer than the longest
whitespace-delimited word of `s`. -/
theorem maxWordLen_infix_nonws :
    ∀ (s u : List Char), u <:+: s → (∀ a ∈ u, isPyWS a = false) →
      u.length ≤ maxWordLen s := by
  intro s
  induction s with
  | nil =>
    intro u hinf _
    rw [List.infix_nil] at hinf
    subst hinf
    simp
  | cons b s2 ih =>
    intro u hinf hall
    rcases List.infix_cons_iff.mp hinf with hpre | hinf2
    · have := maxRunGo_prefix_nonws u (b :: s2) 0 0 hpre hall
      simpa [maxWordLen] using this
    · refine le_trans (ih u hinf2 hall) ?_
      rw [maxWordLen, maxWordLen]
      by_cases hb : isPyWS b = true
      · simp only [maxRunGo, hb, if_true]
        exact maxRunGo_mono s2 0 0 0 (max 0 0) (le_refl 0) (by omega)
      · simp only [maxRunGo, hb, Bool.false_eq_true, if_false]
        exact maxRunGo_mono s2 0 0 1 0 (by omega) (le_refl 0)

theorem maxRunGo_all_ws :
    ∀ (s : List Char), (∀ a ∈ s, isPyWS a = true) → maxRunGo s 0 0 = 0 := by
  intro s
  induction s with
  | nil => simp [maxRunGo]
  | cons c rest ih =>
    intro hall
    have hc : isPyWS c = true := hall c (List.mem_cons_self _ _)
    simp only [maxRunGo, hc, if_true, Nat.max_self]
    exact ih (fun a ha => hall a (List.mem_cons_of_mem _ ha))

/-! Layer 6: `_munge_whitespace` only rewrites whitespace, so it neither
changes the whitespace-erased content nor creates or destroys words. -/

theorem eraseWS_cons_ws {c : Char} (l : List Char) (h : isPyWS c = true) :
    eraseWS (c :: l) = eraseWS l := by
  simp [eraseWS, List.filter_cons, h]

theorem eraseWS_cons_nonws {c : Char} (l : List Char) (h : isPyWS c = false) :
    eraseWS (c :: l) = c :: eraseWS l := by
  simp [eraseWS, List.filter_cons, h]

theorem eraseWS_replaceWS (s : List Char) :
    eraseWS (replaceWS s) = eraseWS s := by
  induction s with
  | nil => rfl
  | cons c rest ih =>
    have hmap : replaceWS (c :: rest) =
        (if isPyWS c then ' ' else c) :: replaceWS rest := rfl
    rw [hmap]
    by_cases hc : isPyWS c = true
    · rw [if_pos hc, eraseWS_cons_ws _ (by decide), eraseWS_cons_ws _ hc, ih]
    · simp only [Bool.not_eq_true] at hc
      rw [if_neg (by simp [hc]), eraseWS_cons_nonws _ hc,
        eraseWS_cons_nonws _ hc, ih]

theorem eraseWS_tabSpaces (col : Nat) : eraseWS (tabSpaces col) = [] := by
  rw [eraseWS, List.filter_eq_nil_iff]
  intro a ha
  rw [tabSpaces] at ha
  rcases List.mem_replicate.mp ha with ⟨_, ha⟩
  subst ha
  decide

theorem expandtabsGo_cons (col : Nat) (c : Char) (rest : List Char) :
    expandtabsGo col (c :: rest) =
      if c = '\t' then tabSpaces col ++ expandtabsGo (col + (8 - col % 8)) rest
      else if c = '\n' || c = '\r' then c :: expandtabsGo 0 rest
      else c :: expandtabsGo (col + 1) rest := rfl

theorem eraseWS_expandtabsGo :
    ∀ (s : List Char) (col : Nat),
      eraseWS (expandtabsGo col s) = eraseWS s := by
  intro s
  induction s with
  | nil => intro col; rfl
  | cons c rest ih =>
    intro col
    rw [expandtabsGo_cons]
    by_cases ht : c = '\t'
    · rw [if_pos ht, ht]
      rw [eraseWS_append, eraseWS_tabSpaces, List.nil_append, ih,
        eraseWS_cons_ws _ (by decide)]
    · rw [if_neg ht]
      by_cases hnl : (c = '\n' || c = '\r') = true
      · rw [if_pos hnl]
        have hws : isPyWS c = true := by
          rcases Bool.or_eq_true .. |>.mp hnl with h | h
          · rw [of_decide_eq_true h]; decide
          · rw [of_decide_eq_true h]; decide
        rw [eraseWS_cons_ws _ hws, eraseWS_cons_ws _ hws, ih]
      · rw [if_neg hnl]
        by_cases hc : isPyWS c = true
        · rw [eraseWS_cons_ws _ hc, eraseWS_cons_ws _ hc, ih]
        · simp only [Bool.not_eq_true] at hc
          rw [eraseWS_cons_nonws _ hc, eraseWS_cons_nonws _ hc, ih]

theorem eraseWS_munge (s : List Char) :
    eraseWS (mungeWhitespace s) = eraseWS s := by
  rw [mungeWhitespace, eraseWS_replaceWS, expandtabs, eraseWS_expandtabsGo]

theorem tabSpaces_all_ws (col : Nat) : ∀ a ∈ tabSpaces col, isPyWS a = true := by
  intro a ha
  rw [tabSpaces] at ha
  rcases List.mem_replicate.mp ha with ⟨_, ha⟩
  subst ha
  decide

theorem tabSpaces_ne_nil (col : Nat) : tabSpaces col ≠ [] := by
  rw [tabSpaces]
  have : 0 < 8 - col % 8 := by omega
  intro h
  have := congrArg List.length h
  simp at this
  omega

theorem nil_of_nonws_prefix_ws {A B x : List Char}
    (hA : ∀ a ∈ A, isPyWS a = true) (hAne : A ≠ [])
    (hx : ∀ a ∈ x, isPyWS a = false) (h : x <+: A ++ B) : x = [] := by
  rcases A with _ | ⟨a, A2⟩
  · exact absurd rfl hAne
  · rcases x with _ | ⟨d, x2⟩
    · rfl
    · rw [List.cons_append] at h
      rcases List.cons_prefix_cons.mp h with ⟨hda, _⟩
      subst hda
      have h1 := hA d (List.mem_cons_self _ _)
      have h2 := hx d (List.mem_cons_self _ _)
      rw [h1] at h2
      cases h2

theorem infix_through_ws_append {x : List Char} :
    ∀ {A B : List Char}, (∀ a ∈ A, isPyWS a = true) →
      (∀ a ∈ x, isPyWS a = false) → x ≠ [] → x <:+: A ++ B → x <:+: B := by
  intro A
  induction A with
  | nil =>
    intro B _ _ _ h
    simpa using h
  | cons a A2 ih =>
    intro B hA hx hne h
    rw [List.cons_append] at h
    rcases List.infix_cons_iff.mp h with hpre | hinf
    · have := nil_of_nonws_prefix_ws (A := a :: A2) (B := B) hA (by simp) hx
        (by rwa [List.cons_append])
      exact absurd this hne
    · exact ih (fun b hb => hA b (List.mem_cons_of_mem _ hb)) hx hne hinf

theorem replaceWS_nonws_isPrefix :
    ∀ (s x : List Char), (∀ a ∈ x, isPyWS a = false) →
      x <+: replaceWS s → x <+: s := by
  intro s
  induction s with
  | nil =>
    intro x _ h
    simpa [replaceWS] using h
  | cons c rest ih =>
    intro x hx h
    have hmap : replaceWS (c :: rest) =
        (if isPyWS c then ' ' else c) :: replaceWS rest := rfl
    rw [hmap] at h
    rcases x with _ | ⟨d, x2⟩
    · exact List.nil_prefix
    · rcases List.cons_prefix_cons.mp h with ⟨hd, hpre2⟩
      have hdn : isPyWS d = false := hx d (List.mem_cons_self _ _)
      by_cases hc : isPyWS c = true
      · rw [if_pos hc] at hd
        subst hd
        cases hdn
      · rw [if_neg hc] at hd
        subst hd
        exact List.cons_prefix_cons.mpr ⟨rfl,
          ih x2 (fun a ha => hx a (List.mem_cons_of_mem _ ha)) hpre2⟩

theorem replaceWS_nonws_isInfix :
    ∀ (s x : List Char), (∀ a ∈ x, isPyWS a = false) →
      x <:+: replaceWS s → x <:+: s := by
  intro s
  induction s with
  | nil =>
    intro x _ h
    simpa [replaceWS] using h
  | cons c rest ih =>
    intro x hx h
    have hmap : replaceWS (c :: rest) =
        (if isPyWS c then ' ' else c) :: replaceWS rest := rfl
    rw [hmap] at h
    rcases List.infix_cons_iff.mp h with hpre | hinf
    · exact List.IsPrefix.isInfix (replaceWS_nonws_isPrefix (c :: rest) x hx
        (by rw [hmap]; exact hpre))
    · exact List.infix_cons (ih x hx hinf)

theorem expandtabsGo_nonws_isPrefix :
    ∀ (s : List Char) (col : Nat) (x : List Char),
      (∀ a ∈ x, isPyWS a = false) →
      x <+: expandtabsGo col s → x <+: s := by
  intro s
  induction s with
  | nil =>
    intro col x _ h
    simpa [expandtabsGo] using h
  | cons c rest ih =>
    intro col x hx h
    rw [expandtabsGo_cons] at h
    by_cases ht : c = '\t'
    · rw [if_pos ht] at h
      have := nil_of_nonws_prefix_ws (tabSpaces_all_ws col)
        (tabSpaces_ne_nil col) hx h
      subst this
      exact List.nil_prefix
    · rw [if_neg ht] at h
      by_cases hnl : (c = '\n' || c = '\r') = true
      · rw [if_pos hnl] at h
        rcases x with _ | ⟨d, x2⟩
        · exact List.nil_prefix
        · rcases List.cons_prefix_cons.mp h with ⟨hd, _⟩
          have hws : isPyWS c = true := by
            rcases Bool.or_eq_true .. |>.mp hnl with h2 | h2
            · rw [of_decide_eq_true h2]; decide
            · rw [of_decide_eq_true h2]; decide
          have hdn := hx d (List.mem_cons_self _ _)
          rw [hd, hws] at hdn
          cases hdn
      · rw [if_neg hnl] at h
        rcases x with _ | ⟨d, x2⟩
        · exact List.nil_prefix
        · rcases List.cons_prefix_cons.mp h with ⟨hd, hpre2⟩
          subst hd
          exact List.cons_prefix_cons.mpr ⟨rfl,
            ih (col + 1) x2 (fun a ha => hx a (List.mem_cons_of_mem _ ha)) hpre2⟩

theorem expandtabsGo_nonws_isInfix :
    ∀ (s : List Char) (col : Nat) (x : List Char),
      (∀ a ∈ x, isPyWS a = false) →
      x <:+: expandtabsGo col s → x <:+: s := by
  intro s
  induction s with
  | nil =>
    intro col x _ h
    simpa [expandtabsGo] using h
  | cons c rest ih =>
    intro col x hx h
    by_cases hxn : x = []
    · subst hxn
      simp
    · rw [expandtabsGo_cons] at h
      by_cases ht : c = '\t'
      · rw [if_pos ht] at h
        have h2 := infix_through_ws_append (tabSpaces_all_ws col) hx hxn h
        exact List.infix_cons (ih (col + (8 - col % 8)) x hx h2)
      · rw [if_neg ht] at h
        by_cases hnl : (c = '\n' || c = '\r') = true
        · rw [if_pos hnl] at h
          rcases List.infix_cons_iff.mp h with hpre | hinf
          · rcases x with _ | ⟨d, x2⟩
            · exact absurd rfl hxn
            · rcases List.cons_prefix_cons.mp hpre with ⟨hd, _⟩
              have hws : isPyWS c = true := by
                rcases Bool.or_eq_true .. |>.mp hnl with h2 | h2
                · rw [of_decide_eq_true h2]; decide
                · rw [of_decide_eq_true h2]; decide
              have hdn := hx d (List.mem_cons_self _ _)
              rw [hd, hws] at hdn
              cases hdn
          · exact List.infix_cons (ih 0 x hx hinf)
        · rw [if_neg hnl] at h
          rcases List.infix_cons_iff.mp h with hpre | hinf
          · rcases x with _ | ⟨d, x2⟩
            · exact absurd rfl hxn
            · rcases List.cons_prefix_cons.mp hpre with ⟨hd, hpre2⟩
              subst hd
              refine List.IsPrefix.isInfix (List.cons_prefix_cons.mpr ⟨rfl, ?_⟩)
              exact expandtabsGo_nonws_isPrefix rest (col + 1) x2
                (fun a ha => hx a (List.mem_cons_of_mem _ ha)) hpre2
          · exact List.infix_cons (ih (col + 1) x hx hinf)

/-- A whitespace-free contiguous piece of the munged text already occurs
contiguously in the original text. -/
theorem munge_nonws_isInfix {p x : List Char}
    (hx : ∀ a ∈ x, isPyWS a = false)
    (h : x <:+: mungeWhitespace p) : x <:+: p := by
  rw [mungeWhitespace] at h
  exact expandtabsGo_nonws_isInfix p 0 x hx
    (replaceWS_nonws_isInfix (expandtabs p) x hx h)

/-! Layer 7: the paragraph split. -/

theorem paraSplitGo_nil_s (fuel : Nat) (acc : List Char) :
    paraSplitGo fuel acc [] = [acc.reverse] := by
  rcases fuel with _ | fuel <;> rfl

theorem paraSplitGo_cons (fuel : Nat) (acc : List Char) (c : Char)
    (rest : List Char) :
    paraSplitGo (fuel + 1) acc (c :: rest) =
      if c = '\n' then
        if rest.head? = some '\n' then
          acc.reverse :: paraSplitGo fuel [] rest.tail
        else acc.reverse :: paraSplitGo fuel [] rest
      else paraSplitGo fuel (c :: acc) rest := rfl

theorem paraSplitGo_eraseWS :
    ∀ (fuel : Nat) (acc s : List Char), s.length ≤ fuel →
      eraseWS (paraSplitGo fuel acc s).flatten =
        eraseWS acc.reverse ++ eraseWS s := by
  intro fuel
  induction fuel with
  | zero =>
    intro acc s hlen
    have hs : s = [] := by
      rcases s with _ | ⟨c, t⟩
      · rfl
      · simp at hlen
    subst hs
    simp [paraSplitGo, eraseWS]
  | succ fuel ih =>
    intro acc s hlen
    rcases s with _ | ⟨c, rest⟩
    · simp [paraSplitGo, eraseWS]
    · simp only [List.length_cons] at hlen
      by_cases hc : c = '\n'
      · subst hc
        rw [paraSplitGo_cons, if_pos rfl]
        rcases rest with _ | ⟨d, t⟩
        · rw [if_neg (by simp)]
          rw [List.flatten_cons, eraseWS_append, paraSplitGo_nil_s]
          rw [show eraseWS ['\n'] = [] from by decide]
          rw [show ([([] : List Char).reverse]).flatten = ([] : List Char)
            from rfl]
          rw [show eraseWS ([] : List Char) = [] from rfl]
        · simp only [List.length_cons] at hlen
          by_cases hd : d = '\n'
          · subst hd
            rw [if_pos (show ('\n' :: t).head? = some '\n' from rfl)]
            rw [List.flatten_cons, eraseWS_append, List.tail_cons,
              ih [] t (by omega)]
            rw [eraseWS_cons_ws ('\n' :: t) (by decide),
              eraseWS_cons_ws t (by decide)]
            rw [show eraseWS (([] : List Char).reverse) = [] from rfl,
              List.nil_append]
          · rw [if_neg (by
              intro hcontra
              simp only [List.head?_cons, Option.some.injEq] at hcontra
              exact hd hcontra)]
            rw [List.flatten_cons, eraseWS_append,
              ih [] (d :: t) (by simp only [List.length_cons]; omega)]
            rw [eraseWS_cons_ws (d :: t) (by decide)]
            rw [show eraseWS (([] : List Char).reverse) = [] from rfl,
              List.nil_append]
      · rw [paraSplitGo_cons, if_neg hc]
        rw [ih (c :: acc) rest (by omega)]
        rw [List.reverse_cons, eraseWS_append]
        have : eraseWS (c :: rest) = eraseWS [c] ++ eraseWS rest := by
          rw [show c :: rest = [c] ++ rest from rfl, eraseWS_append]
        rw [this, List.append_assoc]

theorem paragraphsOf_eraseWS (s : List Char) :
    eraseWS (paragraphsOf s).flatten = eraseWS s := by
  rw [paragraphsOf, paraSplitGo_eraseWS s.length [] s (le_refl _)]
  simp [eraseWS]

theorem paraSplitGo_isInfix :
    ∀ (fuel : Nat) (acc s : List Char) (p : List Char),
      p ∈ paraSplitGo fuel acc s → p <:+: acc.reverse ++ s := by
  intro fuel
  induction fuel with
  | zero =>
    intro acc s p hp
    simp only [paraSplitGo, List.mem_singleton] at hp
    subst hp
    exact List.IsPrefix.isInfix (List.prefix_append _ _)
  | succ fuel ih =>
    intro acc s p hp
    rcases s with _ | ⟨c, rest⟩
    · simp only [paraSplitGo, List.mem_singleton] at hp
      subst hp
      exact List.IsPrefix.isInfix (List.prefix_append _ _)
    · by_cases hc : c = '\n'
      · subst hc
        rw [paraSplitGo_cons, if_pos rfl] at hp
        rcases rest with _ | ⟨d, t⟩
        · rw [if_neg (by simp)] at hp
          rcases List.mem_cons.mp hp with hp | hp
          · subst hp
            exact List.IsPrefix.isInfix (List.prefix_append _ _)
          · have := ih [] [] p hp
            simp only [List.reverse_nil, List.nil_append] at this
            rw [List.infix_nil] at this
            subst this
            simp
        · by_cases hd : d = '\n'
          · subst hd
            rw [if_pos (show ('\n' :: t).head? = some '\n' from rfl)] at hp
            rcases List.mem_cons.mp hp with hp | hp
            · subst hp
              exact List.IsPrefix.isInfix (List.prefix_append _ _)
            · have := ih [] t p (by simpa using hp)
              simp only [List.reverse_nil, List.nil_append] at this
              refine this.trans (List.IsSuffix.isInfix ?_)
              exact ⟨acc.reverse ++ ['\n', '\n'], by simp⟩
          · rw [if_neg (by
              intro hcontra
              simp only [List.head?_cons, Option.some.injEq] at hcontra
              exact hd hcontra)] at hp
            rcases List.mem_cons.mp hp with hp | hp
            · subst hp
              exact List.IsPrefix.isInfix (List.prefix_append _ _)
            · have := ih [] (d :: t) p hp
              simp only [List.reverse_nil, List.nil_append] at this
              refine this.trans (List.IsSuffix.isInfix ?_)
              exact ⟨acc.reverse ++ ['\n'], by simp⟩
      · rw [paraSplitGo_cons, if_neg hc] at hp
        have := ih (c :: acc) rest p hp
        simpa [List.append_assoc] using this

theorem paragraphsOf_isInfix (s p : List Char) (hp : p ∈ paragraphsOf s) :
    p <:+: s := by
  have := paraSplitGo_isInfix s.length [] s p hp
  simpa using this

/-! Layer 8: `str.join` and whitespace-erasure over flattening. -/

theorem foldl_append_data :
    ∀ (l : List String) (acc : String),
      (l.foldl (fun r s => r ++ s) acc).data =
        acc.data ++ (l.map String.data).flatten := by
  intro l
  induction l with
  | nil => intro acc; simp
  | cons s t ih =>
    intro acc
    simp only [List.foldl_cons, List.map_cons, List.flatten_cons]
    rw [ih (acc ++ s)]
    simp

theorem join_data (l : List String) :
    (String.join l).data = (l.map String.data).flatten := by
  rw [String.join, foldl_append_data]
  rfl

theorem eraseWS_flatten_map (L : List (List Char)) :
    eraseWS L.flatten = (L.map eraseWS).flatten := by
  induction L with
  | nil => rfl
  | cons x t ih =>
    rw [List.flatten_cons, eraseWS_append, List.map_cons, List.flatten_cons, ih]

theorem stripEmpty_of_eraseWS_nil {x : List Char} (h : eraseWS x = []) :
    stripEmpty x = true := by
  rw [eraseWS, List.filter_eq_nil_iff] at h
  rw [stripEmpty, List.all_eq_true]
  intro a ha
  have := h a ha
  simpa using this

/-! Layer 9: `textwrap.wrap` per paragraph, and `split_text_advanced`. -/

theorem textwrapWrap_eraseWS (L : Nat) (hL : 1 ≤ L) (p : List Char) :
    eraseWS (textwrapWrap L p).flatten = eraseWS p := by
  unfold textwrapWrap
  rw [wrapChunksGo_eraseWS L hL _ _ false (by omega)]
  unfold wordsepChunks
  rw [wordsepGo_flatten _ _ _ (le_refl _), eraseWS_munge]

theorem textwrapWrap_length (L : Nat) (hL : 1 ≤ L) (p : List Char) :
    ∀ l ∈ textwrapWrap L p, l.length ≤ L := by
  intro l hl
  unfold textwrapWrap at hl
  exact wrapChunksGo_length L hL _ _ false l hl

theorem textwrapWrap_ne_nil (L : Nat) (hL : 1 ≤ L) (p : List Char) :
    ∀ l ∈ textwrapWrap L p, l ≠ [] := by
  intro l hl
  unfold textwrapWrap at hl
  refine wrapChunksGo_ne_nil L hL _ _ false ?_ l hl
  intro x hx
  unfold wordsepChunks at hx
  exact wordsepGo_ne_nil _ _ _ x hx

theorem textwrapWrap_nonws (L : Nat) (hL : 1 ≤ L) (T p : List Char)
    (hpT : p <:+: T) (hmax : maxWordLen T ≤ L) :
    ∀ l ∈ textwrapWrap L p, stripEmpty l = false := by
  intro l hl
  unfold textwrapWrap at hl
  refine wrapChunksGo_nonws L hL _ _ false ?_ ?_ l hl
  · intro x hx hxf
    unfold wordsepChunks at hx
    rcases wordsepGo_homog _ _ _ x hx with hws | hnonws
    · rw [hws] at hxf
      cases hxf
    · have hinf1 : x <:+: mungeWhitespace p := wordsepGo_isInfix _ _ _ x hx
      have hinf2 : x <:+: p := munge_nonws_isInfix hnonws hinf1
      exact le_trans (maxWordLen_infix_nonws T x (hinf2.trans hpT) hnonws) hmax
  · unfold wordsepChunks
    exact wordsepGo_chain _ _ _

theorem flatMap_wrap_eraseWS (L : Nat) (hL : 1 ≤ L) :
    ∀ ps : List (List Char),
      eraseWS ((ps.flatMap (fun p => textwrapWrap L p)).flatten) =
        eraseWS ps.flatten := by
  intro ps
  induction ps with
  | nil => rfl
  | cons p t ih =>
    rw [List.flatMap_cons, List.flatten_append, eraseWS_append, ih,
      textwrapWrap_eraseWS L hL, List.flatten_cons, eraseWS_append]

theorem split_text_advanced_eraseWS (T : String) (L : Nat) (hL : 1 ≤ L) :
    eraseWS (String.join (split_text_advanced T L)).data = eraseWS T.data := by
  rw [join_data]
  unfold split_text_advanced
  rw [List.map_map]
  have hmaps : (List.map (String.data ∘ fun l => String.mk l)
      ((paragraphsOf T.data).flatMap (fun p => textwrapWrap L p))) =
      (paragraphsOf T.data).flatMap (fun p => textwrapWrap L p) := by
    rw [show (String.data ∘ fun l => String.mk l) = id from rfl, List.map_id]
  rw [hmaps, flatMap_wrap_eraseWS L hL, paragraphsOf_eraseWS]

theorem mem_split_text_advanced {T : String} {L : Nat} {s : String}
    (hs : s ∈ split_text_advanced T L) :
    ∃ p l, p ∈ paragraphsOf T.data ∧ l ∈ textwrapWrap L p ∧
      s = String.mk l := by
  unfold split_text_advanced at hs
  rcases List.mem_map.mp hs with ⟨l, hl, hmk⟩
  rcases List.mem_flatMap.mp hl with ⟨p, hp, hlp⟩
  exact ⟨p, l, hp, hlp, hmk.symm⟩

/-! ## Claims C3, C4 and C10: the final statements. -/

/-- C3: for a limit `L ≥ 1` and a text whose words all have at most `L`
characters, `split_text_advanced` preserves the text up to whitespace
normalization (the concatenation of the chunks equals the input after
erasing whitespace on both sides), and every chunk has length at most
`L`. -/
theorem c3_split_join (T : String) (L : Nat) (hL : 1 ≤ L)
    (_hword : maxWordLen T.data ≤ L) :
    eraseWS (String.join (split_text_advanced T L)).data = eraseWS T.data ∧
    ∀ s ∈ split_text_advanced T L, s.length ≤ L := by
  refine ⟨split_text_advanced_eraseWS T L hL, ?_⟩
  intro s hs
  rcases mem_split_text_advanced hs with ⟨p, l, hp, hlp, hmk⟩
  have := textwrapWrap_length L hL p l hlp
  rw [hmk]
  exact this

/-- Witness for C3 on `"one two three"` with limit 5. -/
theorem c3_split_join_witness :
    (1 ≤ 5 ∧ maxWordLen "one two three".data ≤ 5) ∧
    (eraseWS (String.join (split_text_advanced "one two three" 5)).data =
        eraseWS "one two three".data ∧
      ∀ s ∈ split_text_advanced "one two three" 5, s.length ≤ 5) :=
  ⟨⟨by decide, by decide⟩, c3_split_join "one two three" 5 (by decide) (by decide)⟩

/-- C4 (amended): the splitter yields zero chunks on empty input, nonempty
chunks only, chunks of length at most the limit, and the concatenation
preserves the input modulo whitespace normalization; but a word longer than
the limit is broken into pieces of at most the limit rather than kept
intact (see the counterexample). -/
theorem c4_wrap_behavior (T : String) (L : Nat) (hL : 1 ≤ L) :
    split_text_advanced "" L = [] ∧
    (∀ s ∈ split_text_advanced T L, s ≠ "") ∧
    (∀ s ∈ split_text_advanced T L, s.length ≤ L) ∧
    eraseWS (String.join (split_text_advanced T L)).data = eraseWS T.data := by
  refine ⟨rfl, ?_, ?_, split_text_advanced_eraseWS T L hL⟩
  · intro s hs
    rcases mem_split_text_advanced hs with ⟨p, l, hp, hlp, hmk⟩
    have hlne := textwrapWrap_ne_nil L hL p l hlp
    rw [hmk]
    intro heq
    apply hlne
    have := congrArg String.data heq
    simpa using this
  · intro s hs
    rcases mem_split_text_advanced hs with ⟨p, l, hp, hlp, hmk⟩
    have := textwrapWrap_length L hL p l hlp
    rw [hmk]
    exact this

/-- Witness for C4's amended claim on `"hello"` with limit 3 (the oversize
word is split into `["hel", "lo"]`). -/
theorem c4_wrap_behavior_witness :
    1 ≤ 3 ∧
    (split_text_advanced "" 3 = [] ∧
      (∀ s ∈ split_text_advanced "hello" 3, s ≠ "") ∧
      (∀ s ∈ split_text_advanced "hello" 3, s.length ≤ 3) ∧
      eraseWS (String.join (split_text_advanced "hello" 3)).data =
        eraseWS "hello".data) :=
  ⟨by decide, c4_wrap_behavior "hello" 3 (by decide)⟩

/-- C10 (amended): a whitespace-only input yields zero chunks; and when no
word of the input is longer than the limit, no emitted chunk is empty or
whitespace-only.  (Without that proviso a whitespace-only chunk can be
emitted, see the counterexample.) -/
theorem c10_ws_only (T : String) (L : Nat) (hL : 1 ≤ L) :
    ((∀ a ∈ T.data, isPyWS a = true) → split_text_advanced T L = []) ∧
    (maxWordLen T.data ≤ L →
      ∀ s ∈ split_text_advanced T L, stripEmpty s.data = false) := by
  have hpart2 : maxWordLen T.data ≤ L →
      ∀ s ∈ split_text_advanced T L, stripEmpty s.data = false := by
    intro hmax s hs
    rcases mem_split_text_advanced hs with ⟨p, l, hp, hlp, hmk⟩
    have := textwrapWrap_nonws L hL T.data p
      (paragraphsOf_isInfix T.data p hp) hmax l hlp
    rw [hmk]
    exact this
  refine ⟨?_, hpart2⟩
  intro hws
  by_contra hne
  rcases List.exists_mem_of_ne_nil _ hne with ⟨s, hs⟩
  have hmax : maxWordLen T.data ≤ L := by
    rw [maxWordLen, maxRunGo_all_ws T.data hws]
    omega
  have hfalse := hpart2 hmax s hs
  have hcontent := split_text_advanced_eraseWS T L hL
  have hTnil : eraseWS T.data = [] := by
    rw [eraseWS, List.filter_eq_nil_iff]
    intro a ha
    rw [hws a ha]
    decide
  rw [hTnil, join_data, eraseWS_flatten_map, List.flatten_eq_nil_iff]
    at hcontent
  have hmem : eraseWS s.data ∈
      ((split_text_advanced T L).map String.data).map eraseWS :=
    List.mem_map.mpr ⟨s.data, List.mem_map.mpr ⟨s, hs, rfl⟩, rfl⟩
  have := stripEmpty_of_eraseWS_nil (hcontent _ hmem)
  rw [this] at hfalse
  cases hfalse

/-- Witness for C10's amended claim: a whitespace-only input gives no
chunks, and with words within the limit every chunk of `"a b"` has a
non-whitespace character. -/
theorem c10_ws_only_witness :
    (1 ≤ 4 ∧ (∀ a ∈ " \n\t ".data, isPyWS a = true) ∧
      maxWordLen "a b".data ≤ 4) ∧
    split_text_advanced " \n\t " 4 = [] ∧
    (∀ s ∈ split_text_advanced "a b" 4, stripEmpty s.data = false) :=
  ⟨⟨by decide, by decide, by decide⟩,
    (c10_ws_only " \n\t " 4 (by decide)).1 (by decide),
    (c10_ws_only "a b" 4 (by decide)).2 (by decide)⟩

end TranscriptPipeline
